import Mathlib

/-!
Verification of the planar Langford counter (`planar_mt.cpp`).

The program counts permutations of 1,1,2,2,...,n,n in which the two copies of
each m are separated by exactly m other entries and the n connecting arcs can
be split into two non-crossing families (drawn below/above the line).  The
search is a depth-first traversal driven by an explicit stack of 4-byte frames
(slot `k`, value index `m` with -1 meaning "open a new pair", side `d`,
inherited open count `num_open`), with per-depth bit-packed state arrays:
`availability[k]` (bitset of unassigned value indices) and `open[2k+2]`,
`open[2k+3]` (bitsets of pending opening slots per side, slot s stored as bit
2n-1-s so the least significant set bit is the most recent opening).  Work is
split across `kMaxThreads` workers by a hash of the state at a fixed depth.
Results are collected in a shared vector, then sorted and counted up to
duplicates by `unique_count`.

We embed the worker loop (`dfs`) as a small-step machine over exactly these
state components (arrays become functions `ℕ → ℕ`, the machine-word bitsets
become unbounded naturals -- the separate overflow analysis shows all values
stay below the respective type bounds for n ≤ 31, so this is faithful), and
also as a structurally recursive traversal `dfsRec` of the same decision tree;
a simulation theorem identifies the two.  A fast arithmetic evaluator `dfsE`
(proved equal to `dfsRec`) is used for concrete kernel evaluation.
-/

namespace Planar

/-- Worker count, `kMaxThreads = 511` in the source. -/
def kMaxThreads : ℕ := 511

/-- Maximum supported n, `kMaxN = 31` in the source. -/
def kMaxN : ℤ := 31

/-- Base-2 logarithm of `x` for `0 < x < 2^64`, by a 6-level binary cascade.
This is the specification of the bit scan underlying `ffsll`. -/
def lg64 (x : ℕ) : ℕ :=
  let p5 := if 4294967296 ≤ x then (32, x >>> 32) else (0, x)
  let p4 := if 65536 ≤ p5.2 then (16, p5.2 >>> 16) else (0, p5.2)
  let p3 := if 256 ≤ p4.2 then (8, p4.2 >>> 8) else (0, p4.2)
  let p2 := if 16 ≤ p3.2 then (4, p3.2 >>> 4) else (0, p3.2)
  let p1 := if 4 ≤ p2.2 then (2, p2.2 >>> 2) else (0, p2.2)
  let a0 := if 2 ≤ p1.2 then 1 else 0
  p5.1 + p4.1 + p3.1 + p2.1 + p1.1 + a0

/-- `ffsl(x)`: one plus the index of the least significant set bit of `x`,
and 0 when `x = 0` (for x < 2^64, as used by the program). -/
def ffsll (x : ℕ) : ℕ :=
  if x = 0 then 0 else lg64 (x ^^^ (x &&& (x - 1))) + 1

/-- One decision-stack frame, 4 `int8_t` in the source: slot `k`, value index
`m` (with `-1` meaning "open a new pair here"), connection side `d`
(`false` = side 0, the "below" side of the very first frame), and the
open-pair count `no` inherited when the frame was pushed. -/
structure Frame where
  k : ℕ
  m : ℤ
  d : Bool
  no : ℕ
deriving DecidableEq

/-- Search state threaded along one path of the decision tree: next slot `k`,
availability bitset `avail`, per-side opening bitsets `o0`, `o1`, the
`pos` map (value index ↦ closing slot) and the running open count `no`.
In the machine these live in the per-depth arrays; `dfsRec` threads them. -/
structure Ctx where
  k : ℕ
  avail : ℕ
  o0 : ℕ
  o1 : ℕ
  pos : ℕ → ℕ
  no : ℕ

/-- The constant `nn1 = 1 << (2n-1)` of the source: bit of slot 0. -/
def nn1 (n : ℕ) : ℕ := 1 <<< (2 * n - 1)

/-- The constant `msb = 1 << (n-1)` of the source. -/
def msb (n : ℕ) : ℕ := 1 <<< (n - 1)

/-- Apply one popped frame to the state read at its depth: the body of the
`place_macro` of the source plus the `++k` that follows it.  A close
(`m ≥ 0`) records `pos[m] = k`, clears availability bit `m` and pops the
lowest set bit of the chosen side's opening bitset; an open (`m = -1`) sets
bit `2n-1-k` on the chosen side and increments the open count. -/
def applyFrame (n : ℕ) (f : Frame) (c : Ctx) : Ctx :=
  if 0 ≤ f.m then
    { k := f.k + 1
      avail := c.avail ^^^ (1 <<< f.m.toNat)
      o0 := if f.d then c.o0 else c.o0 &&& (c.o0 - 1)
      o1 := if f.d then c.o1 &&& (c.o1 - 1) else c.o1
      pos := fun j => if j = f.m.toNat then f.k else c.pos j
      no := f.no }
  else
    { k := f.k + 1
      avail := c.avail
      o0 := if f.d then c.o0 else c.o0 ||| nn1 n >>> f.k
      o1 := if f.d then c.o1 ||| nn1 n >>> f.k else c.o1
      pos := c.pos
      no := f.no + 1 }

/-- Candidate "close" frame for side `d` at the current state: mirrors the
loop `for (d=0; d<2; ++d) { if (openings[d]) { m = offset + ffsll(...); ...`
of the source, including the cast-to-unsigned range test, the availability
test and the `m || k <= n` mirror-symmetry gate. -/
def closeChild (n : ℕ) (c : Ctx) (d : Bool) : List Frame :=
  let od := if d then c.o1 else c.o0
  if od ≠ 0 then
    let m : ℤ := (c.k : ℤ) - 2 * n - 2 + ffsll od
    if 0 ≤ m ∧ m < n ∧ (c.avail >>> m.toNat) % 2 = 1 ∧ (m ≠ 0 ∨ c.k ≤ n) then
      [⟨c.k, m, d, c.no⟩]
    else []
  else []

/-- Candidate "open" frames (both sides), pushed only while fewer than `n`
pairs have been opened, in the order they are popped from the stack. -/
def openChildren (n : ℕ) (c : Ctx) : List Frame :=
  if c.no < n then [⟨c.k, -1, false, c.no⟩, ⟨c.k, -1, true, c.no⟩] else []

/-- All child frames of a search node in pop (exploration) order.  The source
pushes close d=0, close d=1, open d=1, open d=0, so they pop in the reverse
order. -/
def childFrames (n : ℕ) (c : Ctx) : List Frame :=
  openChildren n c ++ closeChild n c true ++ closeChild n c false

/-- Work-partition hash of the source: `uint64_t(131071*(openings[1] -
openings[0]) + avail)`, i.e. the signed 64-bit computation reduced mod 2^64. -/
def stateHash (c : Ctx) : ℕ :=
  ((131071 * ((c.o1 : ℤ) - c.o0) + c.avail) % 18446744073709551616).toNat

/-- The partition depth `k_limit` of the source. -/
def klimit (n : ℕ) : ℤ := if 19 < n then 8 + (n / 3 : ℕ) else (n : ℤ) - 5

/-- Abandon test of the source: a worker abandons a node reached at depth
`k_limit` when the state hash does not select its id. -/
def abandons (n W t : ℕ) (c : Ctx) : Prop :=
  1 < W ∧ (c.k : ℤ) = klimit n ∧ stateHash c % W ≠ t

instance (n W t : ℕ) (c : Ctx) : Decidable (abandons n W t c) := by
  unfold abandons; infer_instance

/-- Solution recorded at a completed path: the `pos` array, i.e. the closing
slot of each value index 0..n-1 (the `Positions<n>` copied into `results`). -/
def solOf (n : ℕ) (p : ℕ → ℕ) : List ℕ := (List.range n).map p

/-- The decision-tree traversal in structurally recursive form: apply the
frame, record the solution at depth 2n, abandon foreign partitions at depth
`k_limit`, otherwise recurse over the children in pop order.  The fuel only
needs to exceed the remaining depth `2n - k`. -/
def dfsRec (n W t : ℕ) : ℕ → Frame → Ctx → List (List ℕ)
  | 0, _, _ => []
  | fuel + 1, f, c =>
    let c' := applyFrame n f c
    if c'.k = 2 * n then [solOf n c'.pos]
    else if abandons n W t c' then []
    else ((childFrames n c').map (fun g => dfsRec n W t fuel g c')).flatten

/-- Number of loop iterations the machine spends on a frame's subtree. -/
def sizeF (n W t : ℕ) : ℕ → Frame → Ctx → ℕ
  | 0, _, _ => 1
  | fuel + 1, f, c =>
    let c' := applyFrame n f c
    if c'.k = 2 * n then 1
    else if abandons n W t c' then 1
    else 1 + ((childFrames n c').map (fun g => sizeF n W t fuel g c')).sum

/-- Machine state of one worker: the explicit decision stack (head = top; the
source stores each frame as 4 bytes of `int8_t stack[24*n]`), the per-depth
arrays `availability` and `open` as functions of the index, the shared `pos`
scratch array, and the worker's appended results.  Array cells the program
never wrote before reading are modelled as 0; the simulation theorem shows
every read cell was in fact initialized or written. -/
structure St where
  stack : List Frame
  avl : ℕ → ℕ
  opn : ℕ → ℕ
  pos : ℕ → ℕ
  res : List (List ℕ)

/-- One iteration of the source's `while (top)` loop: pop a frame, copy the
parent openings to this depth, apply the placement, store the new
availability, then either record a finished solution, abandon a foreign
partition, or push the children. -/
def stepM (n W t : ℕ) (s : St) : St :=
  match s.stack with
  | [] => s
  | f :: rest =>
    let c : Ctx := ⟨f.k, s.avl f.k, s.opn (2 * f.k), s.opn (2 * f.k + 1), s.pos, f.no⟩
    let c' := applyFrame n f c
    let s1 : St :=
      { stack := rest
        avl := fun j => if j = f.k + 1 then c'.avail else s.avl j
        opn := fun j =>
          if j = 2 * f.k + 2 then c'.o0 else if j = 2 * f.k + 3 then c'.o1 else s.opn j
        pos := c'.pos
        res := s.res }
    if c'.k = 2 * n then { s1 with res := s.res ++ [solOf n c'.pos] }
    else if abandons n W t c' then s1
    else { s1 with stack := childFrames n c' ++ rest }

/-- Iterated machine step. -/
def runM (n W t : ℕ) : ℕ → St → St
  | 0, s => s
  | j + 1, s => runM n W t j (stepM n W t s)

/-- The very first frame pushed: `push(0, -1, 0, 0)` -- open a pair at slot 0
connected from side 0 ("below"). -/
def rootFrame : Frame := ⟨0, -1, false, 0⟩

/-- Initial machine state: only `availability[0] = msb | (msb-1)` and
`open[0] = open[1] = 0` are initialized. -/
def initSt (n : ℕ) : St :=
  { stack := [rootFrame]
    avl := fun j => if j = 0 then msb n ||| (msb n - 1) else 0
    opn := fun _ => 0
    pos := fun _ => 0
    res := [] }

/-- The context the root frame is applied to. -/
def initCtx (n : ℕ) : Ctx :=
  ⟨0, msb n ||| (msb n - 1), 0, 0, fun _ => 0, 0⟩

/-- One worker's `dfs<n>(results, num_threads, thread_id, mtx)`: run the loop
to completion (the simulation theorem shows the chosen iteration count ends
with an empty stack, i.e. the `while (top)` loop has terminated) and return
the solutions this worker appended. -/
def dfs (n W t : ℕ) : List (List ℕ) :=
  (runM n W t (sizeF n W t (2 * n) rootFrame (initCtx n)) (initSt n)).res

/-- The context the machine reads from its arrays when popping frame `f`. -/
def readCtx (f : Frame) (s : St) : Ctx :=
  ⟨f.k, s.avl f.k, s.opn (2 * f.k), s.opn (2 * f.k + 1), s.pos, f.no⟩

/-- The machine state after the array writes of one loop iteration on frame
`f`, before the terminal/abandon/push branch decides stack and results. -/
def writeSt (n : ℕ) (f : Frame) (s : St) (rest : List Frame) : St :=
  { stack := rest
    avl := fun j => if j = f.k + 1 then (applyFrame n f (readCtx f s)).avail else s.avl j
    opn := fun j =>
      if j = 2 * f.k + 2 then (applyFrame n f (readCtx f s)).o0
      else if j = 2 * f.k + 3 then (applyFrame n f (readCtx f s)).o1 else s.opn j
    pos := (applyFrame n f (readCtx f s)).pos
    res := s.res }

/-- Lexicographic `operator<=` on solution encodings, the comparison
underlying `std::sort` on `array<int8_t, n>` (all entries compared are
nonnegative). -/
def lexLe : List ℕ → List ℕ → Bool
  | [], _ => true
  | _ :: _, [] => false
  | a :: as, b :: bs => if a < b then true else if b < a then false else lexLe as bs

/-- `lexLe` as a relation, for sorting. -/
def lexR : List ℕ → List ℕ → Prop := fun a b => lexLe a b = true

instance : DecidableRel lexR := fun a b => Bool.decEq (lexLe a b) true

/-- Number of adjacent equal pairs, the quantity subtracted by the
`if (results[i] == results[i-1]) --unique;` loop of `unique_count`. -/
def dupCount : List (List ℕ) → ℕ
  | [] => 0
  | [_] => 0
  | a :: b :: rest => (if a = b then 1 else 0) + dupCount (b :: rest)

/-- Number of maximal runs of adjacent equal entries. -/
def runsCount : List (List ℕ) → ℕ
  | [] => 0
  | [_] => 1
  | a :: b :: rest => (if a = b then 0 else 1) + runsCount (b :: rest)

/-- `unique_count` of the source: sort the results (`std::sort` sorts by the
lexicographic order on the stored encodings; any sorted permutation is the
same list) and count entries not equal to their predecessor. -/
def unique_count (rs : List (List ℕ)) : ℕ :=
  let sorted := List.insertionSort lexR rs
  sorted.length - dupCount sorted

/-- The shared results vector after all `kMaxThreads` workers finished, in a
canonical interleaving (worker order; the appends are mutex-guarded in the
source, and `unique_count` sorts, so any interleaving yields the same
outcome). -/
def ledgerW (n W : ℕ) : List (List ℕ) :=
  ((List.range W).map (fun t => dfs n W t)).flatten

/-- `solve<n>` generic in the search actually launched: the degenerate-input
guard `n <= 0 || n > kMaxN || n % 4 == 1 || n % 4 == 2` (C++ `%` truncates,
`Int.tmod`) short-circuits to 0 before any traversal. -/
def solveGen (search : ℕ → List (List ℕ)) (n : ℤ) : ℕ :=
  if n ≤ 0 ∨ kMaxN < n ∨ n.tmod 4 = 1 ∨ n.tmod 4 = 2 then 0
  else unique_count (search n.toNat)

/-- `solve<n>` with a configurable worker count. -/
def solveWith (W : ℕ) (n : ℤ) : ℕ := solveGen (fun m => ledgerW m W) n

/-- `solve<n>` of the source: `kMaxThreads` workers. -/
def solve (n : ℤ) : ℕ := solveWith kMaxThreads n

/-- A completed arc: opening slot, closing slot, side, value index. -/
structure Arc where
  a : ℕ
  b : ℕ
  d : Bool
  m : ℕ
deriving DecidableEq

/-- Search paths of the (unpartitioned) decision tree, together with the
abstract reading of the bit-packed state: `Trace n c s0 s1 arcs` says the
state `c` is reached along some path whose pending opening slots are `s0`
(side 0, most recent first) and `s1`, and whose completed arcs are `arcs`.
The constructors are exactly the root frame and the four child decisions. -/
inductive Trace (n : ℕ) : Ctx → List ℕ → List ℕ → List Arc → Prop
  | root : Trace n (applyFrame n rootFrame (initCtx n)) [0] [] []
  | openL {c s0 s1 arcs} (f : Frame) :
      Trace n c s0 s1 arcs → c.k ≠ 2 * n → f ∈ openChildren n c → f.d = false →
      Trace n (applyFrame n f c) (c.k :: s0) s1 arcs
  | openR {c s0 s1 arcs} (f : Frame) :
      Trace n c s0 s1 arcs → c.k ≠ 2 * n → f ∈ openChildren n c → f.d = true →
      Trace n (applyFrame n f c) s0 (c.k :: s1) arcs
  | closeL {c s0 s1 arcs} (f : Frame) :
      Trace n c s0 s1 arcs → c.k ≠ 2 * n → f ∈ closeChild n c false →
      Trace n (applyFrame n f c) s0.tail s1
        (arcs ++ [⟨s0.headD 0, c.k, false, f.m.toNat⟩])
  | closeR {c s0 s1 arcs} (f : Frame) :
      Trace n c s0 s1 arcs → c.k ≠ 2 * n → f ∈ closeChild n c true →
      Trace n (applyFrame n f c) s0 s1.tail
        (arcs ++ [⟨s1.headD 0, c.k, true, f.m.toNat⟩])

/-- A state is reachable when some path leads to it. -/
def Reach (n : ℕ) (c : Ctx) : Prop := ∃ s0 s1 arcs, Trace n c s0 s1 arcs

/-- Encoding of a list of pending opening slots into the openings bitset:
slot `s` contributes bit `2n-1-s`. -/
def encOpen (n : ℕ) : List ℕ → ℕ
  | [] => 0
  | s :: rest => nn1 n >>> s + encOpen n rest

/-- Two arcs cross when they interleave strictly. -/
def Crossing (x y : Arc) : Prop :=
  (x.a < y.a ∧ y.a < x.b ∧ x.b < y.b) ∨ (y.a < x.a ∧ x.a < y.b ∧ y.b < x.b)

/-- A family of arcs is non-crossing (properly nested or disjoint). -/
def NonCrossing (l : List Arc) : Prop := l.Pairwise (fun x y => ¬ Crossing x y)

instance (x y : Arc) : Decidable (Crossing x y) := by unfold Crossing; infer_instance

instance (l : List Arc) : Decidable (NonCrossing l) := by
  unfold NonCrossing; infer_instance

/-- Slots covered by a list of arcs (each arc covers its two endpoints). -/
def arcSlots : List Arc → List ℕ
  | [] => []
  | x :: rest => x.a :: x.b :: arcSlots rest

/-- Stack-bound potential of a post-apply state: processing the subtree of a
frame whose application yields `c` never makes the machine stack longer than
the stack below the frame plus this quantity. -/
def stackBound (n : ℕ) (c : Ctx) : ℕ := 1 + 2 * (n - c.no) + (2 * n - c.k)

/-- Well-formed pending-opening stack: strictly decreasing (most recent = top =
largest slot) and all slots below the current one. -/
def OpenStackInv (k : ℕ) (l : List ℕ) : Prop := l.Pairwise (· > ·) ∧ ∀ s ∈ l, s < k

/-- The full state invariant carried along every search path, relating the
bit-packed state `c` to its abstract reading `(s0, s1, arcs)`. -/
structure TraceInv (n : ℕ) (c : Ctx) (s0 s1 : List ℕ) (arcs : List Arc) : Prop where
  kpos : 1 ≤ c.k
  kle : c.k ≤ 2 * n
  st0 : OpenStackInv c.k s0
  st1 : OpenStackInv c.k s1
  enc0 : c.o0 = encOpen n s0
  enc1 : c.o1 = encOpen n s1
  noEq : c.no = s0.length + s1.length + arcs.length
  noLe : c.no ≤ n
  availBit : ∀ m : ℕ, c.avail.testBit m = true ↔ (m < n ∧ m ∉ arcs.map Arc.m)
  valsNodup : (arcs.map Arc.m).Nodup
  valsLt : ∀ x ∈ arcs, x.m < n
  posEq : ∀ x ∈ arcs, c.pos x.m = x.b
  posZero : ∀ m, m < n → m ∉ arcs.map Arc.m → c.pos m = 0
  geom : ∀ x ∈ arcs, x.b = x.a + x.m + 2 ∧ x.b < c.k
  tile : (arcSlots arcs ++ (s0 ++ s1)).Perm (List.range c.k)
  ncL : NonCrossing (arcs.filter (fun x => x.d = false))
  ncR : NonCrossing (arcs.filter (fun x => x.d = true))
  sep : ∀ x ∈ arcs, ∀ s ∈ (if x.d then s1 else s0), s < x.a ∨ x.b < s
  slot0 : (0 ∈ s0) ∨ ∃ x ∈ arcs, x.a = 0 ∧ x.d = false

/-- The scalar components of a search state (everything but `pos`): the child
enumeration, the abandon test and the scalar effect of a frame depend only on
these. -/
def core (c : Ctx) : ℕ × ℕ × ℕ × ℕ × ℕ := (c.k, c.avail, c.o0, c.o1, c.no)

/-- Compatibility of a machine state with the context of the frame on top of
its stack: the per-depth arrays hold the context's bitsets at its depth, and
the global `pos` array agrees with the threaded one on assigned values. -/
def compat (n : ℕ) (s : St) (c : Ctx) : Prop :=
  s.avl c.k = c.avail ∧ s.opn (2 * c.k) = c.o0 ∧ s.opn (2 * c.k + 1) = c.o1 ∧
  ∀ m, m < n → c.avail.testBit m = false → s.pos m = c.pos m

/-- Well-formedness of a frame relative to the context it will be applied to:
the source only ever pushes such frames. -/
def goodFrame (n : ℕ) (f : Frame) (c : Ctx) : Prop :=
  f.k = c.k ∧ f.no = c.no ∧ f.no ≤ n ∧
  (f.m = -1 ∧ f.no < n ∨ 0 ≤ f.m ∧ f.m < n ∧ (c.avail >>> f.m.toNat) % 2 = 1)

/-- Postcondition of running the machine for exactly the subtree of the frame
`f` (applied to context `c`): the frame group is consumed, the recursive
results are appended, shallow array cells are untouched, `pos` is only written
at values available in `c`, and along the way the stack stays short and only
well-bounded frames are pushed. -/
def SimPost (n W t fuel : ℕ) (f : Frame) (c : Ctx) (s : St) (rest : List Frame) : Prop :=
  (runM n W t (sizeF n W t fuel f c) s).stack = rest ∧
  (runM n W t (sizeF n W t fuel f c) s).res = s.res ++ dfsRec n W t fuel f c ∧
  (∀ j, j ≤ c.k → (runM n W t (sizeF n W t fuel f c) s).avl j = s.avl j) ∧
  (∀ j, j ≤ 2 * c.k + 1 → (runM n W t (sizeF n W t fuel f c) s).opn j = s.opn j) ∧
  (∀ m, m < n → c.avail.testBit m = false →
    (runM n W t (sizeF n W t fuel f c) s).pos m = s.pos m) ∧
  (∀ j, j ≤ sizeF n W t fuel f c → (runM n W t j s).stack.length ≤
    rest.length + stackBound n (applyFrame n f c)) ∧
  (∀ j, j ≤ sizeF n W t fuel f c → ∀ g ∈ (runM n W t j s).stack,
    g ∈ rest ∨ g.k < 2 * n)

/-- Induction hypothesis shape for the simulation: the postcondition holds for
every adequately fueled frame. -/
def SimHyp (n W t fuel : ℕ) : Prop :=
  ∀ (f : Frame) (c : Ctx) (s : St) (rest : List Frame),
    2 * n - c.k ≤ fuel → s.stack = f :: rest → compat n s c → goodFrame n f c →
    Reach n (applyFrame n f c) → SimPost n W t fuel f c s rest

/-- Postcondition of running the machine through a suffix `gs` of a child
group: like `SimPost`, for the summed iteration count. -/
def ListPost (n W t fuel : ℕ) (gs : List Frame) (c' : Ctx) (s : St)
    (rest : List Frame) (B : ℕ) : Prop :=
  (runM n W t ((gs.map (fun g => sizeF n W t fuel g c')).sum) s).stack = rest ∧
  (runM n W t ((gs.map (fun g => sizeF n W t fuel g c')).sum) s).res =
    s.res ++ (gs.map (fun g => dfsRec n W t fuel g c')).flatten ∧
  (∀ j, j ≤ c'.k →
    (runM n W t ((gs.map (fun g => sizeF n W t fuel g c')).sum) s).avl j = s.avl j) ∧
  (∀ j, j ≤ 2 * c'.k + 1 →
    (runM n W t ((gs.map (fun g => sizeF n W t fuel g c')).sum) s).opn j = s.opn j) ∧
  (∀ m, m < n → c'.avail.testBit m = false →
    (runM n W t ((gs.map (fun g => sizeF n W t fuel g c')).sum) s).pos m = s.pos m) ∧
  (∀ j, j ≤ (gs.map (fun g => sizeF n W t fuel g c')).sum →
    (runM n W t j s).stack.length ≤ rest.length + B) ∧
  (∀ j, j ≤ (gs.map (fun g => sizeF n W t fuel g c')).sum →
    ∀ g ∈ (runM n W t j s).stack, g ∈ rest ∨ g.k < 2 * n)

/-- Fast evaluator for the single-worker traversal.  State is packed into
plain naturals: `n2 = 2n`, `p2n = 2^n`, `bb = 1 <<< (2n-1)`, and `pos` keeps
the closing slot of value index m in bits 8m..8m+7 (slots are < 2n ≤ 62 < 256,
and each value index is written at most once along a path, onto a zero field).
Instead of the bit-scan index `m = offset + ffsll(openings[d])` the evaluator
manipulates the corresponding power `B = 2^m` directly, obtained from the
lowest set bit of the openings word by shifting: `B = 0` exactly when the word
is zero or the implied value would be negative.  Children are explored inline
in pop order: open 0, open 1, close 1, close 0. -/
def dfsE (n n2 p2n bb : ℕ) : ℕ → ℕ → ℕ → ℕ → ℕ → ℕ → ℕ → List ℕ :=
  Nat.rec (motive := fun _ => ℕ → ℕ → ℕ → ℕ → ℕ → ℕ → List ℕ)
    (fun _ _ _ _ _ _ => [])
    (fun _ ih k avail o0 o1 pos no =>
      cond (k.beq n2) [pos]
        ((cond (no.blt n)
            (ih (k + 1) avail (o0 ||| bb >>> k) o1 pos (no + 1) ++
              ih (k + 1) avail o0 (o1 ||| bb >>> k) pos (no + 1)) []) ++
          (cond ((((o1 ^^^ (o1 &&& (o1 - 1))) <<< k) >>> (n2 + 1)).beq 0) []
            (cond ((((o1 ^^^ (o1 &&& (o1 - 1))) <<< k) >>> (n2 + 1)).blt p2n &&
                !(avail &&& (((o1 ^^^ (o1 &&& (o1 - 1))) <<< k) >>> (n2 + 1))).beq 0 &&
                (!(((o1 ^^^ (o1 &&& (o1 - 1))) <<< k) >>> (n2 + 1)).beq 1 || k.ble n))
              (ih (k + 1) (avail ^^^ ((((o1 ^^^ (o1 &&& (o1 - 1))) <<< k) >>> (n2 + 1))))
                o0 (o1 &&& (o1 - 1))
                (pos + k * (((o1 ^^^ (o1 &&& (o1 - 1))) <<< k) >>> (n2 + 1)) ^ 8) no)
              [])) ++
          (cond ((((o0 ^^^ (o0 &&& (o0 - 1))) <<< k) >>> (n2 + 1)).beq 0) []
            (cond ((((o0 ^^^ (o0 &&& (o0 - 1))) <<< k) >>> (n2 + 1)).blt p2n &&
                !(avail &&& (((o0 ^^^ (o0 &&& (o0 - 1))) <<< k) >>> (n2 + 1))).beq 0 &&
                (!(((o0 ^^^ (o0 &&& (o0 - 1))) <<< k) >>> (n2 + 1)).beq 1 || k.ble n))
              (ih (k + 1) (avail ^^^ ((((o0 ^^^ (o0 &&& (o0 - 1))) <<< k) >>> (n2 + 1))))
                (o0 &&& (o0 - 1)) o1
                (pos + k * (((o0 ^^^ (o0 &&& (o0 - 1))) <<< k) >>> (n2 + 1)) ^ 8) no)
              []))))

/-- Unpack a packed solution into the list of closing slots per value index. -/
def decodeSol (n p : ℕ) : List ℕ := (List.range n).map (fun m => (p >>> (8 * m)) % 256)

/-- Pack a `pos` map into 8-bit fields. -/
def packPos (n : ℕ) (p : ℕ → ℕ) : ℕ :=
  ((List.range n).map (fun m => p m <<< (8 * m))).sum

/-- Single-worker results computed by the fast evaluator, starting from the
state after the root frame (slot 0 opened on side 0). -/
def fastResults (n : ℕ) : List (List ℕ) :=
  (dfsE n (2 * n) (msb n <<< 1) (nn1 n) (2 * n) 1 (msb n ||| (msb n - 1)) (nn1 n) 0 0 1).map
    (decodeSol n)

/-- Validity of a recorded solution `sol` (the closing slot of each value
index in value order): there is a system of n arcs, one per value index,
obeying the Langford spacing law `b = a + m + 2` (value m+1 separated by m+1
entries), covering each of the 2n slots exactly once, with each side's arc
family non-crossing, and `sol` lists the closing slots. -/
def ValidSolution (n : ℕ) (sol : List ℕ) : Prop :=
  sol.length = n ∧
  ∃ arcs : List Arc,
    (∀ m, m < n → m ∈ arcs.map Arc.m) ∧
    (∀ x ∈ arcs, x.b = x.a + x.m + 2 ∧ sol.getD x.m 0 = x.b) ∧
    (arcSlots arcs).Perm (List.range (2 * n)) ∧
    NonCrossing (arcs.filter (fun x => x.d = false)) ∧
    NonCrossing (arcs.filter (fun x => x.d = true)) ∧
    (∃ x ∈ arcs, x.a = 0 ∧ x.d = false)

/-- The spec's canonical encoding of a recorded solution: the value at each
closing slot, in increasing slot order (the recorded encoding is instead the
closing slot of each value, in value order). -/
def specEnc (p : List ℕ) : List ℕ :=
  (List.insertionSort (fun x y : ℕ × ℕ => x.1 ≤ y.1)
    ((List.range p.length).map (fun m => (p.getD m 0, m + 1)))).map Prod.snd

/-- Comparison of recorded solutions through the spec's encoding. -/
def specLeR : List ℕ → List ℕ → Prop := fun a b => lexLe (specEnc a) (specEnc b) = true

instance : DecidableRel specLeR := fun a b => Bool.decEq (lexLe (specEnc a) (specEnc b)) true

/-! ### Basic unfolding lemmas -/

theorem dfsRec_zero (n W t : ℕ) (f : Frame) (c : Ctx) : dfsRec n W t 0 f c = [] := rfl

theorem dfsRec_succ (n W t fuel : ℕ) (f : Frame) (c : Ctx) :
    dfsRec n W t (fuel + 1) f c =
      (if (applyFrame n f c).k = 2 * n then [solOf n (applyFrame n f c).pos]
       else if abandons n W t (applyFrame n f c) then []
       else ((childFrames n (applyFrame n f c)).map
          (fun g => dfsRec n W t fuel g (applyFrame n f c))).flatten) := rfl

theorem sizeF_zero (n W t : ℕ) (f : Frame) (c : Ctx) : sizeF n W t 0 f c = 1 := rfl

theorem sizeF_succ (n W t fuel : ℕ) (f : Frame) (c : Ctx) :
    sizeF n W t (fuel + 1) f c =
      (if (applyFrame n f c).k = 2 * n then 1
       else if abandons n W t (applyFrame n f c) then 1
       else 1 + ((childFrames n (applyFrame n f c)).map
          (fun g => sizeF n W t fuel g (applyFrame n f c))).sum) := rfl

theorem runM_zero (n W t : ℕ) (s : St) : runM n W t 0 s = s := rfl

theorem runM_succ (n W t j : ℕ) (s : St) :
    runM n W t (j + 1) s = runM n W t j (stepM n W t s) := rfl

theorem runM_add (n W t a b : ℕ) (s : St) :
    runM n W t (a + b) s = runM n W t b (runM n W t a s) := by
  induction a generalizing s with
  | zero => rw [Nat.zero_add]; rfl
  | succ a ih =>
    have h : a + 1 + b = (a + b) + 1 := by omega
    rw [h, runM_succ, runM_succ, ih]

theorem stepM_nil (n W t : ℕ) (s : St) (h : s.stack = []) : stepM n W t s = s := by
  unfold stepM; rw [h]

theorem runM_nil (n W t j : ℕ) (s : St) (h : s.stack = []) : runM n W t j s = s := by
  induction j with
  | zero => rfl
  | succ j ih => rw [runM_succ, stepM_nil n W t s h, ih]

/-! ### The lexicographic comparison is a linear order -/

theorem lexLe_refl (l : List ℕ) : lexLe l l = true := by
  induction l with
  | nil => rfl
  | cons a t ih => simp [lexLe, ih]

theorem lexLe_total (a b : List ℕ) : lexLe a b = true ∨ lexLe b a = true := by
  induction a generalizing b with
  | nil => left; rfl
  | cons x xs ih =>
    cases b with
    | nil => right; rfl
    | cons y ys =>
      rcases Nat.lt_trichotomy x y with h | h | h
      · left; simp [lexLe, h]
      · subst h; rcases ih ys with h2 | h2
        · left; simpa [lexLe] using h2
        · right; simpa [lexLe] using h2
      · right; simp [lexLe, h]

theorem lexLe_antisymm {a b : List ℕ} (h1 : lexLe a b = true) (h2 : lexLe b a = true) :
    a = b := by
  induction a generalizing b with
  | nil => cases b with
    | nil => rfl
    | cons y ys => simp [lexLe] at h2
  | cons x xs ih =>
    cases b with
    | nil => simp [lexLe] at h1
    | cons y ys =>
      rcases Nat.lt_trichotomy x y with h | h | h
      · simp [lexLe, Nat.not_lt.mpr (Nat.le_of_lt h), h] at h2
      · subst h
        simp only [lexLe, if_neg (Nat.lt_irrefl x)] at h1 h2
        rw [ih h1 h2]
      · simp [lexLe, Nat.not_lt.mpr (Nat.le_of_lt h), h] at h1

theorem lexLe_trans {a b c : List ℕ} (h1 : lexLe a b = true) (h2 : lexLe b c = true) :
    lexLe a c = true := by
  induction a generalizing b c with
  | nil => rfl
  | cons x xs ih =>
    cases b with
    | nil => simp [lexLe] at h1
    | cons y ys =>
      cases c with
      | nil => simp [lexLe] at h2
      | cons z zs =>
        simp only [lexLe] at h1 h2 ⊢
        by_cases hxy : x < y
        · by_cases hyz : y < z
          · rw [if_pos (by omega : x < z)]
          · by_cases hzy : z < y
            · rw [if_neg hyz, if_pos hzy] at h2; exact absurd h2 (by simp)
            · have : y = z := by omega
              subst this; rw [if_pos hxy]
        · by_cases hyx : y < x
          · rw [if_neg hxy, if_pos hyx] at h1; exact absurd h1 (by simp)
          · have hxy' : x = y := by omega
            subst hxy'
            simp only [if_neg (Nat.lt_irrefl x)] at h1
            by_cases hxz : x < z
            · rw [if_pos hxz]
            · rw [if_neg hxz] at h2 ⊢
              by_cases hzx : z < x
              · rw [if_pos hzx] at h2; exact absurd h2 (by simp)
              · rw [if_neg hzx] at h2 ⊢; exact ih h1 h2

instance : IsTotal (List ℕ) lexR := ⟨lexLe_total⟩

instance : IsTrans (List ℕ) lexR := ⟨fun _ _ _ => lexLe_trans⟩

instance : IsAntisymm (List ℕ) lexR := ⟨fun _ _ => lexLe_antisymm⟩

instance : IsRefl (List ℕ) lexR := ⟨lexLe_refl⟩

/-! ### unique_count counts distinct entries -/

theorem runsCount_add_dupCount (l : List (List ℕ)) :
    runsCount l + dupCount l = l.length := by
  induction l with
  | nil => rfl
  | cons a t ih =>
    cases t with
    | nil => rfl
    | cons b r =>
      simp only [runsCount, dupCount, List.length_cons] at *
      by_cases h : a = b <;> simp [h] <;> omega

theorem unique_count_eq_runsCount (rs : List (List ℕ)) :
    unique_count rs = runsCount (List.insertionSort lexR rs) := by
  have h := runsCount_add_dupCount (List.insertionSort lexR rs)
  show (List.insertionSort lexR rs).length - dupCount (List.insertionSort lexR rs) = _
  omega

theorem runsCount_sorted_eq_dedup {l : List (List ℕ)} (h : l.Sorted lexR) :
    runsCount l = l.dedup.length := by
  induction l with
  | nil => rfl
  | cons a t ih =>
    cases t with
    | nil => rfl
    | cons b r =>
      have hs := List.sorted_cons.mp h
      have ht := ih hs.2
      by_cases hab : a = b
      · subst hab
        rw [List.dedup_cons_of_mem (List.mem_cons_self a r)]
        simpa [runsCount] using ht
      · have hnm : a ∉ b :: r := by
          intro hmem
          rcases List.mem_cons.mp hmem with h1 | h1
          · exact hab h1
          · have h2 := hs.1 b (List.mem_cons_self b r)
            have hs2 := List.sorted_cons.mp hs.2
            have h3 := hs2.1 a h1
            exact hab (lexLe_antisymm h2 h3)
        rw [List.dedup_cons_of_not_mem hnm]
        simp only [runsCount, List.length_cons, if_neg hab]
        omega

theorem unique_count_eq_card (rs : List (List ℕ)) :
    unique_count rs = rs.toFinset.card := by
  rw [unique_count_eq_runsCount,
    runsCount_sorted_eq_dedup (List.sorted_insertionSort lexR rs)]
  rw [List.card_toFinset]
  exact ((List.perm_insertionSort lexR rs).dedup.length_eq)

/-! ### Bit-scan arithmetic: `ffsll` on numbers of known 2-adic valuation -/

theorem testBit_two_mul_add_one (z i : ℕ) :
    (2 * z + 1).testBit (i + 1) = z.testBit i := by
  rw [Nat.testBit_add_one]
  congr 1
  omega

theorem testBit_two_mul (z i : ℕ) : (2 * z).testBit (i + 1) = z.testBit i := by
  rw [Nat.testBit_add_one]
  congr 1
  omega

theorem testBit_two_mul_add_one_zero (z : ℕ) : (2 * z + 1).testBit 0 = true := by
  simp [Nat.testBit_zero, Nat.mul_add_mod]

theorem testBit_two_mul_zero (z : ℕ) : (2 * z).testBit 0 = false := by
  simp [Nat.testBit_zero, Nat.mul_mod_right]

theorem testBit_pow_mul (e a j : ℕ) :
    (2 ^ e * a).testBit j = if j < e then false else a.testBit (j - e) := by
  have h := Nat.testBit_mul_pow_two_add a (b := 0) (Nat.pos_pow_of_pos e (by omega)) j
  rw [Nat.add_zero] at h
  rw [h]
  rcases Nat.lt_or_ge j e with hj | hj
  · simp [hj]
  · simp [Nat.not_lt.mpr hj]

theorem land_pred_odd_mul (e z : ℕ) :
    (2 ^ e * (2 * z + 1)) &&& (2 ^ e * (2 * z + 1) - 1) = 2 ^ (e + 1) * z := by
  have hx1 : 2 ^ e * (2 * z + 1) - 1 = 2 ^ e * (2 * z) + (2 ^ e - 1) := by
    have hp : 0 < 2 ^ e := Nat.pos_pow_of_pos e (by omega)
    have hm : 2 ^ e * (2 * z + 1) = 2 ^ e * (2 * z) + 2 ^ e := by ring
    omega
  apply Nat.eq_of_testBit_eq
  intro j
  rw [Nat.testBit_and, hx1,
    Nat.testBit_mul_pow_two_add (2 * z)
      (Nat.sub_lt (Nat.pos_pow_of_pos e (by omega)) Nat.one_pos),
    testBit_pow_mul, testBit_pow_mul]
  rcases Nat.lt_trichotomy j e with hj | hj | hj
  · simp [hj, Nat.lt_succ_of_lt hj]
  · subst hj
    simp [Nat.lt_irrefl, Nat.lt_succ_self, Nat.sub_self, testBit_two_mul_add_one_zero,
      Nat.testBit_two_pow_sub_one]
  · have h1 : ¬ j < e := by omega
    have h2 : ¬ j < e + 1 := by omega
    simp only [h1, h2, if_neg, ite_false]
    obtain ⟨i, hi⟩ : ∃ i, j - e = i + 1 := ⟨j - e - 1, by omega⟩
    rw [hi, testBit_two_mul_add_one, testBit_two_mul]
    have : j - (e + 1) = i := by omega
    rw [this, Bool.and_self]

theorem xor_land_pred_odd_mul (e z : ℕ) :
    (2 ^ e * (2 * z + 1)) ^^^ ((2 ^ e * (2 * z + 1)) &&& (2 ^ e * (2 * z + 1) - 1)) =
      2 ^ e := by
  rw [land_pred_odd_mul]
  apply Nat.eq_of_testBit_eq
  intro j
  rw [Nat.testBit_xor, testBit_pow_mul, testBit_pow_mul]
  rcases Nat.lt_trichotomy j e with hj | hj | hj
  · simp [hj, Nat.lt_succ_of_lt hj, Nat.testBit_two_pow_of_ne (by omega : e ≠ j)]
  · subst hj
    simp only [Nat.lt_irrefl, Nat.lt_succ_self, Nat.sub_self, Nat.testBit_two_pow_self,
      if_true, if_false, ite_true, ite_false, if_pos, if_neg]
    simp [testBit_two_mul_add_one_zero, Nat.testBit_zero]
    omega
  · have h1 : ¬ j < e := by omega
    have h2 : ¬ j < e + 1 := by omega
    simp only [h1, h2, if_neg, ite_false]
    obtain ⟨i, hi⟩ : ∃ i, j - e = i + 1 := ⟨j - e - 1, by omega⟩
    rw [hi, testBit_two_mul_add_one]
    have h3 : j - (e + 1) = i := by omega
    rw [h3, Bool.xor_self, Nat.testBit_two_pow_of_ne (by omega : e ≠ j)]

theorem lg64_two_pow : ∀ e, e < 64 → lg64 (2 ^ e) = e := by decide

theorem ffsll_odd_mul (e z : ℕ) (he : e < 64) : ffsll (2 ^ e * (2 * z + 1)) = e + 1 := by
  have hne : 2 ^ e * (2 * z + 1) ≠ 0 :=
    Nat.mul_ne_zero (Nat.pos_pow_of_pos e (by omega)).ne' (by omega)
  unfold ffsll
  rw [if_neg hne, xor_land_pred_odd_mul, lg64_two_pow e he]

theorem shiftRight_mod_two_eq_one (x i : ℕ) : (x >>> i) % 2 = 1 ↔ x.testBit i = true := by
  rw [Nat.testBit_to_div_mod, Nat.shiftRight_eq_div_pow]
  simp

/-! ### The openings encoding -/

theorem nn1_eq (n : ℕ) : nn1 n = 2 ^ (2 * n - 1) := by
  simp [nn1, Nat.shiftLeft_eq]

theorem nn1_shiftRight (n s : ℕ) (hs : s < 2 * n) : nn1 n >>> s = 2 ^ (2 * n - 1 - s) := by
  rw [nn1_eq, Nat.shiftRight_eq_div_pow]
  rw [Nat.pow_div (by omega) (by omega)]

theorem encOpen_cons (n s : ℕ) (l : List ℕ) (hs : s < 2 * n) :
    encOpen n (s :: l) = 2 ^ (2 * n - 1 - s) + encOpen n l := by
  rw [encOpen, nn1_shiftRight n s hs]

theorem encOpen_dvd (n j : ℕ) (l : List ℕ) (h : ∀ s ∈ l, s < 2 * n ∧ j ≤ 2 * n - 1 - s) :
    2 ^ j ∣ encOpen n l := by
  induction l with
  | nil => exact Dvd.intro 0 rfl
  | cons s rest ih =>
    obtain ⟨hs, hj⟩ := h s (List.mem_cons_self s rest)
    rw [encOpen_cons n s rest hs]
    exact Nat.dvd_add (Nat.pow_dvd_pow 2 hj)
      (ih fun u hu => h u (List.mem_cons_of_mem s hu))

theorem encOpen_struct (n s : ℕ) (l : List ℕ) (hl : ∀ u ∈ l, u < s)
    (hb : ∀ u ∈ s :: l, u < 2 * n) :
    ∃ z, encOpen n (s :: l) = 2 ^ (2 * n - 1 - s) * (2 * z + 1) ∧
      encOpen n l = 2 ^ (2 * n - s) * z := by
  have hs : s < 2 * n := hb s (List.mem_cons_self s l)
  obtain ⟨z, hz⟩ := (encOpen_dvd n (2 * n - s) l (fun u hu =>
    ⟨(hb u (List.mem_cons_of_mem s hu)), by have := hl u hu; omega⟩))
  refine ⟨z, ?_, hz⟩
  rw [encOpen_cons n s l hs, hz]
  have he : 2 * n - s = (2 * n - 1 - s) + 1 := by omega
  rw [he, pow_succ]
  ring

theorem encOpen_ne_zero (n s : ℕ) (l : List ℕ) (hs : s < 2 * n) :
    encOpen n (s :: l) ≠ 0 := by
  rw [encOpen_cons n s l hs]
  have : 0 < 2 ^ (2 * n - 1 - s) := Nat.pos_pow_of_pos _ (by omega)
  omega

theorem ffsll_encOpen (n s : ℕ) (l : List ℕ) (hl : ∀ u ∈ l, u < s)
    (hb : ∀ u ∈ s :: l, u < 2 * n) (hn : n ≤ 32) :
    ffsll (encOpen n (s :: l)) = 2 * n - s := by
  obtain ⟨z, hz, _⟩ := encOpen_struct n s l hl hb
  have hs : s < 2 * n := hb s (List.mem_cons_self s l)
  rw [hz, ffsll_odd_mul (2 * n - 1 - s) z (by omega)]
  omega

/-! ### Frame application and child membership, unpacked -/

theorem applyFrame_openCase (n : ℕ) (f : Frame) (c : Ctx) (h : f.m < 0) :
    applyFrame n f c =
      ⟨f.k + 1, c.avail, if f.d then c.o0 else c.o0 ||| nn1 n >>> f.k,
        if f.d then c.o1 ||| nn1 n >>> f.k else c.o1, c.pos, f.no + 1⟩ := by
  unfold applyFrame
  rw [if_neg (by omega)]

theorem applyFrame_closeCase (n : ℕ) (f : Frame) (c : Ctx) (h : 0 ≤ f.m) :
    applyFrame n f c =
      ⟨f.k + 1, c.avail ^^^ (1 <<< f.m.toNat),
        if f.d then c.o0 else c.o0 &&& (c.o0 - 1),
        if f.d then c.o1 &&& (c.o1 - 1) else c.o1,
        fun j => if j = f.m.toNat then f.k else c.pos j, f.no⟩ := by
  unfold applyFrame
  rw [if_pos h]

theorem mem_openChildren {n : ℕ} {c : Ctx} {f : Frame} (h : f ∈ openChildren n c) :
    c.no < n ∧ (f = ⟨c.k, -1, false, c.no⟩ ∨ f = ⟨c.k, -1, true, c.no⟩) := by
  unfold openChildren at h
  by_cases hno : c.no < n
  · rw [if_pos hno] at h
    rcases List.mem_cons.mp h with h1 | h1
    · exact ⟨hno, Or.inl h1⟩
    · exact ⟨hno, Or.inr (List.mem_singleton.mp h1)⟩
  · rw [if_neg hno] at h
    exact absurd h (List.not_mem_nil f)

theorem mem_closeChild {n : ℕ} {c : Ctx} {d : Bool} {f : Frame}
    (h : f ∈ closeChild n c d) :
    (if d then c.o1 else c.o0) ≠ 0 ∧
      f = ⟨c.k, (c.k : ℤ) - 2 * n - 2 + ffsll (if d then c.o1 else c.o0), d, c.no⟩ ∧
      0 ≤ f.m ∧ f.m < n ∧ (c.avail >>> f.m.toNat) % 2 = 1 ∧ (f.m ≠ 0 ∨ c.k ≤ n) := by
  unfold closeChild at h
  by_cases hod : (if d then c.o1 else c.o0) ≠ 0
  · rw [if_pos hod] at h
    by_cases hcond : 0 ≤ (c.k : ℤ) - 2 * n - 2 + ffsll (if d then c.o1 else c.o0) ∧
        (c.k : ℤ) - 2 * n - 2 + ffsll (if d then c.o1 else c.o0) < n ∧
        (c.avail >>> ((c.k : ℤ) - 2 * n - 2 +
          ffsll (if d then c.o1 else c.o0)).toNat) % 2 = 1 ∧
        ((c.k : ℤ) - 2 * n - 2 + ffsll (if d then c.o1 else c.o0) ≠ 0 ∨ c.k ≤ n)
    · rw [if_pos hcond] at h
      have hf := List.mem_singleton.mp h
      subst hf
      exact ⟨hod, rfl, hcond.1, hcond.2.1, hcond.2.2.1, hcond.2.2.2⟩
    · rw [if_neg hcond] at h
      exact absurd h (List.not_mem_nil f)
  · rw [if_neg hod] at h
    exact absurd h (List.not_mem_nil f)

/-! ### Initial availability mask -/

theorem initAvail_eq (n : ℕ) (hn : 1 ≤ n) : msb n ||| (msb n - 1) = 2 ^ n - 1 := by
  have hmsb : msb n = 2 ^ (n - 1) := by simp [msb, Nat.shiftLeft_eq]
  have h := Nat.mul_add_lt_is_or
    (Nat.sub_lt (Nat.pos_pow_of_pos (n - 1) (by omega)) Nat.one_pos) 1
  rw [Nat.mul_one] at h
  rw [hmsb, ← h]
  obtain ⟨m, rfl⟩ : ∃ m, n = m + 1 := ⟨n - 1, by omega⟩
  have hp : 2 ^ (m + 1) = 2 ^ m + 2 ^ m := by rw [pow_succ]; ring
  have hq : m + 1 - 1 = m := by omega
  rw [hq]
  have hpos : 0 < 2 ^ m := Nat.pos_pow_of_pos _ (by omega)
  omega

theorem lor_encOpen (n : ℕ) (l : List ℕ) (s : ℕ) (hs : s < 2 * n)
    (hl : ∀ u ∈ l, u < s) (hb : ∀ u ∈ l, u < 2 * n) :
    encOpen n l ||| nn1 n >>> s = encOpen n (s :: l) := by
  obtain ⟨z, hz⟩ := encOpen_dvd n (2 * n - s) l
    (fun u hu => ⟨hb u hu, by have := hl u hu; omega⟩)
  have hlt : 2 ^ (2 * n - 1 - s) < 2 ^ (2 * n - s) :=
    Nat.pow_lt_pow_right (by omega) (by omega)
  have h := Nat.mul_add_lt_is_or hlt z
  rw [encOpen_cons n s l hs, nn1_shiftRight n s hs, hz]
  rw [Nat.add_comm, h, Nat.lor_comm]

/-! ### Tiling permutation bookkeeping -/

theorem perm_insert_k (A B : List ℕ) (k : ℕ) (h : (A ++ B).Perm (List.range k)) :
    (A ++ (k :: B)).Perm (List.range (k + 1)) := by
  have h1 : (A ++ (k :: B)).Perm (k :: (A ++ B)) := List.perm_middle
  have h2 : (k :: List.range k).Perm (List.range k ++ [k]) :=
    (List.perm_append_singleton k (List.range k)).symm
  have h3 := (h1.trans ((h.cons k))).trans h2
  rwa [← List.range_succ] at h3

theorem perm_close_k (A B : List ℕ) (s k : ℕ) (h : (A ++ (s :: B)).Perm (List.range k)) :
    ((A ++ [s, k]) ++ B).Perm (List.range (k + 1)) := by
  have e1 : (A ++ [s, k]) ++ B = A ++ (s :: k :: B) := by simp
  rw [e1]
  have h1 : (A ++ (s :: k :: B)).Perm (s :: (A ++ (k :: B))) := List.perm_middle
  have h2 : (s :: (A ++ (k :: B))).Perm (s :: k :: (A ++ B)) :=
    (@List.perm_middle _ k A B).cons s
  have h3 : (s :: k :: (A ++ B)).Perm (k :: s :: (A ++ B)) := List.Perm.swap k s _
  have h4 : (k :: s :: (A ++ B)).Perm (k :: (A ++ (s :: B))) :=
    (@List.perm_middle _ s A B).symm.cons k
  have h5 : (k :: (A ++ (s :: B))).Perm (k :: List.range k) := h.cons k
  have h6 : (k :: List.range k).Perm (List.range k ++ [k]) :=
    (List.perm_append_singleton k (List.range k)).symm
  have := ((((h1.trans h2).trans h3).trans h4).trans h5).trans h6
  rwa [← List.range_succ] at this

theorem arcSlots_append (l1 l2 : List Arc) :
    arcSlots (l1 ++ l2) = arcSlots l1 ++ arcSlots l2 := by
  induction l1 with
  | nil => rfl
  | cons x t ih => simp [arcSlots, ih]

/-! ### Invariant: root case -/

theorem inv_root (n : ℕ) (hn : 1 ≤ n) :
    TraceInv n (applyFrame n rootFrame (initCtx n)) [0] [] [] := by
  have h1 : applyFrame n rootFrame (initCtx n) =
      ⟨1, msb n ||| (msb n - 1), nn1 n, 0, fun _ => 0, 1⟩ := by
    rw [applyFrame_openCase n rootFrame (initCtx n) (by norm_num [rootFrame])]
    simp [rootFrame, initCtx]
  rw [h1]
  refine
    { kpos := le_refl 1
      kle := by dsimp only; omega
      st0 := ⟨List.pairwise_singleton _ _, by simp⟩
      st1 := ⟨List.Pairwise.nil, by simp⟩
      enc0 := by simp [encOpen]
      enc1 := rfl
      noEq := by simp
      noLe := hn
      availBit := ?_
      valsNodup := by simp
      valsLt := by simp
      posEq := by simp
      posZero := by intro m _ _; rfl
      geom := by simp
      tile := ?_
      ncL := by simp [NonCrossing]
      ncR := by simp [NonCrossing]
      sep := by simp
      slot0 := Or.inl (List.mem_singleton.mpr rfl) }
  · intro m
    show (msb n ||| (msb n - 1)).testBit m = true ↔ _
    rw [initAvail_eq n hn, Nat.testBit_two_pow_sub_one]
    simp
  · show (arcSlots [] ++ ([0] ++ [])).Perm (List.range 1)
    simp [arcSlots, List.range_succ]

/-! ### Invariant: open cases -/

theorem inv_openL {n : ℕ} {c : Ctx} {s0 s1 : List ℕ} {arcs : List Arc} {f : Frame}
    (ih : TraceInv n c s0 s1 arcs) (hk : c.k ≠ 2 * n) (hf : f ∈ openChildren n c)
    (hd : f.d = false) :
    TraceInv n (applyFrame n f c) (c.k :: s0) s1 arcs := by
  obtain ⟨hno, hfe⟩ := mem_openChildren hf
  have hfe : f = ⟨c.k, -1, false, c.no⟩ := by
    rcases hfe with h | h
    · exact h
    · rw [h] at hd; simp at hd
  subst hfe
  rw [applyFrame_openCase n _ c (by norm_num)]
  simp only [if_neg (Bool.false_ne_true)]
  have hck : c.k < 2 * n := lt_of_le_of_ne ih.kle hk
  refine
    { kpos := by dsimp only; omega
      kle := by dsimp only; omega
      st0 := ⟨List.Pairwise.cons (fun s hs => (ih.st0.2 s hs)) ih.st0.1,
        fun s hs => ?_⟩
      st1 := ⟨ih.st1.1, fun s hs => Nat.lt_succ_of_lt (ih.st1.2 s hs)⟩
      enc0 := ?_
      enc1 := ih.enc1
      noEq := by have := ih.noEq; dsimp only; simp only [List.length_cons]; omega
      noLe := hno
      availBit := ih.availBit
      valsNodup := ih.valsNodup
      valsLt := ih.valsLt
      posEq := ih.posEq
      posZero := ih.posZero
      geom := fun x hx => ⟨(ih.geom x hx).1, Nat.lt_succ_of_lt (ih.geom x hx).2⟩
      tile := perm_insert_k _ _ _ ?_
      ncL := ih.ncL
      ncR := ih.ncR
      sep := fun x hx s hs => ?_
      slot0 := ?_ }
  · rcases List.mem_cons.mp hs with h | h
    · dsimp only; omega
    · exact Nat.lt_succ_of_lt (ih.st0.2 s h)
  · show c.o0 ||| nn1 n >>> c.k = encOpen n (c.k :: s0)
    rw [ih.enc0]
    exact lor_encOpen n s0 c.k hck ih.st0.2 (fun u hu => lt_trans (ih.st0.2 u hu) hck)
  · show (arcSlots arcs ++ (s0 ++ s1)).Perm (List.range c.k)
    exact ih.tile
  · by_cases hxd : x.d
    · simp only [if_pos hxd] at hs ⊢
      exact ih.sep x hx s (by simpa [hxd] using hs)
    · simp only [if_neg hxd] at hs ⊢
      rcases List.mem_cons.mp hs with h | h
      · subst h
        right
        exact (ih.geom x hx).2
      · exact ih.sep x hx s (by simpa [hxd] using h)
  · rcases ih.slot0 with h | h
    · exact Or.inl (List.mem_cons_of_mem _ h)
    · exact Or.inr h

theorem inv_openR {n : ℕ} {c : Ctx} {s0 s1 : List ℕ} {arcs : List Arc} {f : Frame}
    (ih : TraceInv n c s0 s1 arcs) (hk : c.k ≠ 2 * n) (hf : f ∈ openChildren n c)
    (hd : f.d = true) :
    TraceInv n (applyFrame n f c) s0 (c.k :: s1) arcs := by
  obtain ⟨hno, hfe⟩ := mem_openChildren hf
  have hfe : f = ⟨c.k, -1, true, c.no⟩ := by
    rcases hfe with h | h
    · rw [h] at hd; simp at hd
    · exact h
  subst hfe
  rw [applyFrame_openCase n _ c (by norm_num)]
  simp only [if_pos]
  have hck : c.k < 2 * n := lt_of_le_of_ne ih.kle hk
  refine
    { kpos := by dsimp only; omega
      kle := by dsimp only; omega
      st0 := ⟨ih.st0.1, fun s hs => Nat.lt_succ_of_lt (ih.st0.2 s hs)⟩
      st1 := ⟨List.Pairwise.cons (fun s hs => (ih.st1.2 s hs)) ih.st1.1,
        fun s hs => ?_⟩
      enc0 := ih.enc0
      enc1 := ?_
      noEq := by have := ih.noEq; dsimp only; simp only [List.length_cons]; omega
      noLe := hno
      availBit := ih.availBit
      valsNodup := ih.valsNodup
      valsLt := ih.valsLt
      posEq := ih.posEq
      posZero := ih.posZero
      geom := fun x hx => ⟨(ih.geom x hx).1, Nat.lt_succ_of_lt (ih.geom x hx).2⟩
      tile := ?_
      ncL := ih.ncL
      ncR := ih.ncR
      sep := fun x hx s hs => ?_
      slot0 := ih.slot0 }
  · rcases List.mem_cons.mp hs with h | h
    · dsimp only; omega
    · exact Nat.lt_succ_of_lt (ih.st1.2 s h)
  · show c.o1 ||| nn1 n >>> c.k = encOpen n (c.k :: s1)
    rw [ih.enc1]
    exact lor_encOpen n s1 c.k hck ih.st1.2 (fun u hu => lt_trans (ih.st1.2 u hu) hck)
  · show (arcSlots arcs ++ (s0 ++ (c.k :: s1))).Perm (List.range (c.k + 1))
    have h1 : (arcSlots arcs ++ (s0 ++ (c.k :: s1))).Perm
        ((arcSlots arcs ++ s0) ++ (c.k :: s1)) := by rw [List.append_assoc]
    have h2 := perm_insert_k (arcSlots arcs ++ s0) s1 c.k
      (by rw [List.append_assoc]; exact ih.tile)
    exact h1.trans h2
  · by_cases hxd : x.d
    · simp only [if_pos hxd] at hs ⊢
      rcases List.mem_cons.mp hs with h | h
      · subst h
        right
        exact (ih.geom x hx).2
      · exact ih.sep x hx s (by simpa [hxd] using h)
    · simp only [if_neg hxd] at hs ⊢
      exact ih.sep x hx s (by simpa [hxd] using hs)

/-! ### Invariant: close cases -/

theorem inv_closeL {n : ℕ} {c : Ctx} {s0 s1 : List ℕ} {arcs : List Arc} {f : Frame}
    (hn32 : n ≤ 32) (ih : TraceInv n c s0 s1 arcs) (hk : c.k ≠ 2 * n)
    (hf : f ∈ closeChild n c false) :
    TraceInv n (applyFrame n f c) s0.tail s1
      (arcs ++ [⟨s0.headD 0, c.k, false, f.m.toNat⟩]) := by
  obtain ⟨hod, hfe, hm0, hmn, hbit, hgate⟩ := mem_closeChild hf
  have hod' : c.o0 ≠ 0 := hod
  cases s0 with
  | nil => exact absurd (by rw [ih.enc0]; rfl) hod'
  | cons s rest =>
  have hpw := List.pairwise_cons.mp ih.st0.1
  have hrest_lt : ∀ u ∈ rest, u < s := fun u hu => hpw.1 u hu
  have hb2n : ∀ u ∈ s :: rest, u < 2 * n :=
    fun u hu => lt_of_lt_of_le (ih.st0.2 u hu) ih.kle
  have hs2n : s < 2 * n := hb2n s (List.mem_cons_self s rest)
  have hsck : s < c.k := ih.st0.2 s (List.mem_cons_self s rest)
  have hffs : ffsll c.o0 = 2 * n - s := by
    rw [ih.enc0]
    exact ffsll_encOpen n s rest hrest_lt hb2n hn32
  have hfk : f.k = c.k := by rw [hfe]
  have hfd : f.d = false := by rw [hfe]
  have hfno : f.no = c.no := by rw [hfe]
  have hfm : f.m = (c.k : ℤ) - 2 * n - 2 + ffsll c.o0 := by simp [hfe]
  have hmval : f.m = (c.k : ℤ) - s - 2 := by rw [hfm, hffs]; omega
  obtain ⟨M, hMdef⟩ : ∃ M, M = f.m.toNat := ⟨_, rfl⟩
  rw [← hMdef]
  rw [← hMdef] at hbit
  have hM : M = c.k - s - 2 := by omega
  have hsk2 : s + 2 ≤ c.k := by omega
  have hMbit : c.avail.testBit M = true := (shiftRight_mod_two_eq_one _ _).mp hbit
  have hMn : M < n := ((ih.availBit M).mp hMbit).1
  have hMnotin : M ∉ arcs.map Arc.m := ((ih.availBit M).mp hMbit).2
  obtain ⟨z, hz1, hz2⟩ := encOpen_struct n s rest hrest_lt hb2n
  have ho0' : c.o0 &&& (c.o0 - 1) = encOpen n rest := by
    have hexp : 2 * n - 1 - s + 1 = 2 * n - s := by omega
    rw [ih.enc0, hz1, land_pred_odd_mul, hexp, ← hz2]
  have hC : applyFrame n f c =
      ⟨c.k + 1, c.avail ^^^ (1 <<< M), encOpen n rest, c.o1,
        fun j => if j = M then c.k else c.pos j, c.no⟩ := by
    rw [applyFrame_closeCase n f c hm0, ← hMdef]
    simp only [hfk, hfd, hfno, Bool.false_eq_true, if_neg, ite_false, ho0']
  rw [hC]
  have hck : c.k < 2 * n := lt_of_le_of_ne ih.kle hk
  have hhead : (s :: rest).headD 0 = s := rfl
  have htail : (s :: rest).tail = rest := rfl
  rw [hhead, htail]
  have hone : (1 : ℕ) <<< M = 2 ^ M := Nat.one_shiftLeft M
  have hmap : (arcs ++ [(⟨s, c.k, false, M⟩ : Arc)]).map Arc.m = arcs.map Arc.m ++ [M] := by
    simp
  refine
    { kpos := by dsimp only; omega
      kle := by dsimp only; omega
      st0 := ⟨hpw.2, fun u hu => Nat.lt_succ_of_lt (ih.st0.2 u (List.mem_cons_of_mem s hu))⟩
      st1 := ⟨ih.st1.1, fun u hu => Nat.lt_succ_of_lt (ih.st1.2 u hu)⟩
      enc0 := rfl
      enc1 := ih.enc1
      noEq := ?_
      noLe := ih.noLe
      availBit := ?_
      valsNodup := ?_
      valsLt := ?_
      posEq := ?_
      posZero := ?_
      geom := ?_
      tile := ?_
      ncL := ?_
      ncR := ?_
      sep := ?_
      slot0 := ?_ }
  · have hno := ih.noEq
    show c.no = rest.length + s1.length + (arcs ++ [(⟨s, c.k, false, M⟩ : Arc)]).length
    rw [List.length_append]
    simp only [List.length_cons, List.length_nil, List.length_singleton] at hno ⊢
    omega
  · intro j
    dsimp only
    rw [hone, Nat.testBit_xor, Nat.testBit_two_pow, hmap]
    by_cases hjM : j = M
    · subst hjM
      simp [hMbit]
    · rw [decide_eq_false (fun h : M = j => hjM h.symm), Bool.xor_false]
      rw [ih.availBit j]
      simp only [List.mem_append, List.mem_singleton]
      constructor
      · rintro ⟨h1, h2⟩
        exact ⟨h1, by rintro (h | h); exact h2 h; exact hjM h⟩
      · rintro ⟨h1, h2⟩
        exact ⟨h1, fun h => h2 (Or.inl h)⟩
  · rw [hmap, ← List.concat_eq_append]
    exact ih.valsNodup.concat hMnotin
  · intro x hx
    rcases List.mem_append.mp hx with h | h
    · exact ih.valsLt x h
    · rw [List.mem_singleton.mp h]
      exact hMn
  · intro x hx
    dsimp only
    rcases List.mem_append.mp hx with h | h
    · have hxm : x.m ≠ M := fun he => hMnotin (he ▸ List.mem_map_of_mem Arc.m h)
      rw [if_neg hxm]
      exact ih.posEq x h
    · rw [List.mem_singleton.mp h]
      simp
  · intro j hj hjn
    dsimp only
    rw [hmap] at hjn
    simp only [List.mem_append, List.mem_singleton] at hjn
    rw [if_neg (fun h => hjn (Or.inr h))]
    exact ih.posZero j hj (fun h => hjn (Or.inl h))
  · intro x hx
    rcases List.mem_append.mp hx with h | h
    · exact ⟨(ih.geom x h).1, Nat.lt_succ_of_lt (ih.geom x h).2⟩
    · rw [List.mem_singleton.mp h]
      refine ⟨?_, Nat.lt_succ_self c.k⟩
      dsimp only
      omega
  · dsimp only
    rw [arcSlots_append]
    have he : arcSlots [(⟨s, c.k, false, M⟩ : Arc)] = [s, c.k] := rfl
    rw [he]
    exact perm_close_k (arcSlots arcs) (rest ++ s1) s c.k (by
      have hT := ih.tile
      simpa using hT)
  · simp only [List.filter_append]
    have hnew : List.filter (fun x => decide (x.d = false)) [(⟨s, c.k, false, M⟩ : Arc)] =
        [⟨s, c.k, false, M⟩] := rfl
    rw [hnew]
    unfold NonCrossing
    rw [List.pairwise_append]
    refine ⟨ih.ncL, List.pairwise_singleton _ _, ?_⟩
    intro y hy x hx
    rw [List.mem_singleton.mp hx]
    have hymem := (List.mem_filter.mp hy).1
    have hyd : y.d = false := by simpa using (List.mem_filter.mp hy).2
    intro hcr
    rcases hcr with ⟨h1, h2, h3⟩ | ⟨h1, h2, h3⟩
    · have hsep := ih.sep y hymem s
        (by rw [if_neg (by simp [hyd])]; exact List.mem_cons_self s rest)
      dsimp only at h1 h2 h3
      omega
    · have hgb := (ih.geom y hymem).2
      dsimp only at h1 h2 h3
      omega
  · simp only [List.filter_append]
    have hnew : List.filter (fun x => decide (x.d = true)) [(⟨s, c.k, false, M⟩ : Arc)] =
        [] := rfl
    rw [hnew, List.append_nil]
    exact ih.ncR
  · intro x hx u hu
    rcases List.mem_append.mp hx with h | h
    · by_cases hxd : x.d
      · rw [if_pos hxd] at hu
        exact ih.sep x h u (by rw [if_pos hxd]; exact hu)
      · rw [if_neg hxd] at hu
        exact ih.sep x h u (by rw [if_neg hxd]; exact List.mem_cons_of_mem s hu)
    · rw [List.mem_singleton.mp h] at hu ⊢
      dsimp only at hu ⊢
      left
      exact hrest_lt u hu
  · rcases ih.slot0 with h | h
    · rcases List.mem_cons.mp h with h1 | h1
      · exact Or.inr ⟨⟨s, c.k, false, M⟩, List.mem_append_right _ (List.mem_singleton.mpr rfl),
          by dsimp only; omega, rfl⟩
      · exact Or.inl h1
    · obtain ⟨x, hx1, hx2, hx3⟩ := h
      exact Or.inr ⟨x, List.mem_append_left _ hx1, hx2, hx3⟩


theorem inv_closeR {n : ℕ} {c : Ctx} {s0 s1 : List ℕ} {arcs : List Arc} {f : Frame}
    (hn32 : n ≤ 32) (ih : TraceInv n c s0 s1 arcs) (hk : c.k ≠ 2 * n)
    (hf : f ∈ closeChild n c true) :
    TraceInv n (applyFrame n f c) s0 s1.tail
      (arcs ++ [⟨s1.headD 0, c.k, true, f.m.toNat⟩]) := by
  obtain ⟨hod, hfe, hm0, hmn, hbit, hgate⟩ := mem_closeChild hf
  have hod' : c.o1 ≠ 0 := hod
  cases s1 with
  | nil => exact absurd (by rw [ih.enc1]; rfl) hod'
  | cons s rest =>
  have hpw := List.pairwise_cons.mp ih.st1.1
  have hrest_lt : ∀ u ∈ rest, u < s := fun u hu => hpw.1 u hu
  have hb2n : ∀ u ∈ s :: rest, u < 2 * n :=
    fun u hu => lt_of_lt_of_le (ih.st1.2 u hu) ih.kle
  have hs2n : s < 2 * n := hb2n s (List.mem_cons_self s rest)
  have hsck : s < c.k := ih.st1.2 s (List.mem_cons_self s rest)
  have hffs : ffsll c.o1 = 2 * n - s := by
    rw [ih.enc1]
    exact ffsll_encOpen n s rest hrest_lt hb2n hn32
  have hfk : f.k = c.k := by rw [hfe]
  have hfd : f.d = true := by rw [hfe]
  have hfno : f.no = c.no := by rw [hfe]
  have hfm : f.m = (c.k : ℤ) - 2 * n - 2 + ffsll c.o1 := by simp [hfe]
  have hmval : f.m = (c.k : ℤ) - s - 2 := by rw [hfm, hffs]; omega
  obtain ⟨M, hMdef⟩ : ∃ M, M = f.m.toNat := ⟨_, rfl⟩
  rw [← hMdef]
  rw [← hMdef] at hbit
  have hM : M = c.k - s - 2 := by omega
  have hsk2 : s + 2 ≤ c.k := by omega
  have hMbit : c.avail.testBit M = true := (shiftRight_mod_two_eq_one _ _).mp hbit
  have hMn : M < n := ((ih.availBit M).mp hMbit).1
  have hMnotin : M ∉ arcs.map Arc.m := ((ih.availBit M).mp hMbit).2
  obtain ⟨z, hz1, hz2⟩ := encOpen_struct n s rest hrest_lt hb2n
  have ho1' : c.o1 &&& (c.o1 - 1) = encOpen n rest := by
    have hexp : 2 * n - 1 - s + 1 = 2 * n - s := by omega
    rw [ih.enc1, hz1, land_pred_odd_mul, hexp, ← hz2]
  have hC : applyFrame n f c =
      ⟨c.k + 1, c.avail ^^^ (1 <<< M), c.o0, encOpen n rest,
        fun j => if j = M then c.k else c.pos j, c.no⟩ := by
    rw [applyFrame_closeCase n f c hm0, ← hMdef]
    simp only [hfk, hfd, hfno, if_pos, ite_true, ho1']
  rw [hC]
  have hck : c.k < 2 * n := lt_of_le_of_ne ih.kle hk
  have hhead : (s :: rest).headD 0 = s := rfl
  have htail : (s :: rest).tail = rest := rfl
  rw [hhead, htail]
  have hone : (1 : ℕ) <<< M = 2 ^ M := Nat.one_shiftLeft M
  have hmap : (arcs ++ [(⟨s, c.k, true, M⟩ : Arc)]).map Arc.m = arcs.map Arc.m ++ [M] := by
    simp
  refine
    { kpos := by dsimp only; omega
      kle := by dsimp only; omega
      st0 := ⟨ih.st0.1, fun u hu => Nat.lt_succ_of_lt (ih.st0.2 u hu)⟩
      st1 := ⟨hpw.2, fun u hu => Nat.lt_succ_of_lt (ih.st1.2 u (List.mem_cons_of_mem s hu))⟩
      enc0 := ih.enc0
      enc1 := rfl
      noEq := ?_
      noLe := ih.noLe
      availBit := ?_
      valsNodup := ?_
      valsLt := ?_
      posEq := ?_
      posZero := ?_
      geom := ?_
      tile := ?_
      ncL := ?_
      ncR := ?_
      sep := ?_
      slot0 := ?_ }
  · have hno := ih.noEq
    show c.no = s0.length + rest.length + (arcs ++ [(⟨s, c.k, true, M⟩ : Arc)]).length
    rw [List.length_append]
    simp only [List.length_cons, List.length_nil, List.length_singleton] at hno ⊢
    omega
  · intro j
    dsimp only
    rw [hone, Nat.testBit_xor, Nat.testBit_two_pow, hmap]
    by_cases hjM : j = M
    · subst hjM
      simp [hMbit]
    · rw [decide_eq_false (fun h : M = j => hjM h.symm), Bool.xor_false]
      rw [ih.availBit j]
      simp only [List.mem_append, List.mem_singleton]
      constructor
      · rintro ⟨h1, h2⟩
        exact ⟨h1, by rintro (h | h); exact h2 h; exact hjM h⟩
      · rintro ⟨h1, h2⟩
        exact ⟨h1, fun h => h2 (Or.inl h)⟩
  · rw [hmap, ← List.concat_eq_append]
    exact ih.valsNodup.concat hMnotin
  · intro x hx
    rcases List.mem_append.mp hx with h | h
    · exact ih.valsLt x h
    · rw [List.mem_singleton.mp h]
      exact hMn
  · intro x hx
    dsimp only
    rcases List.mem_append.mp hx with h | h
    · have hxm : x.m ≠ M := fun he => hMnotin (he ▸ List.mem_map_of_mem Arc.m h)
      rw [if_neg hxm]
      exact ih.posEq x h
    · rw [List.mem_singleton.mp h]
      simp
  · intro j hj hjn
    dsimp only
    rw [hmap] at hjn
    simp only [List.mem_append, List.mem_singleton] at hjn
    rw [if_neg (fun h => hjn (Or.inr h))]
    exact ih.posZero j hj (fun h => hjn (Or.inl h))
  · intro x hx
    rcases List.mem_append.mp hx with h | h
    · exact ⟨(ih.geom x h).1, Nat.lt_succ_of_lt (ih.geom x h).2⟩
    · rw [List.mem_singleton.mp h]
      refine ⟨?_, Nat.lt_succ_self c.k⟩
      dsimp only
      omega
  · dsimp only
    rw [arcSlots_append]
    have he : arcSlots [(⟨s, c.k, true, M⟩ : Arc)] = [s, c.k] := rfl
    rw [he]
    refine perm_close_k (arcSlots arcs) (s0 ++ rest) s c.k ?_
    have hmid : (s0 ++ (s :: rest)).Perm (s :: (s0 ++ rest)) := List.perm_middle
    have h1 : (arcSlots arcs ++ (s :: (s0 ++ rest))).Perm
        (arcSlots arcs ++ (s0 ++ (s :: rest))) := (hmid.symm).append_left (arcSlots arcs)
    exact h1.trans ih.tile
  · simp only [List.filter_append]
    have hnew : List.filter (fun x => decide (x.d = false)) [(⟨s, c.k, true, M⟩ : Arc)] =
        [] := rfl
    rw [hnew, List.append_nil]
    exact ih.ncL
  · simp only [List.filter_append]
    have hnew : List.filter (fun x => decide (x.d = true)) [(⟨s, c.k, true, M⟩ : Arc)] =
        [⟨s, c.k, true, M⟩] := rfl
    rw [hnew]
    unfold NonCrossing
    rw [List.pairwise_append]
    refine ⟨ih.ncR, List.pairwise_singleton _ _, ?_⟩
    intro y hy x hx
    rw [List.mem_singleton.mp hx]
    have hymem := (List.mem_filter.mp hy).1
    have hyd : y.d = true := by simpa using (List.mem_filter.mp hy).2
    intro hcr
    rcases hcr with ⟨h1, h2, h3⟩ | ⟨h1, h2, h3⟩
    · have hsep := ih.sep y hymem s
        (by rw [if_pos hyd]; exact List.mem_cons_self s rest)
      dsimp only at h1 h2 h3
      omega
    · have hgb := (ih.geom y hymem).2
      dsimp only at h1 h2 h3
      omega
  · intro x hx u hu
    rcases List.mem_append.mp hx with h | h
    · by_cases hxd : x.d
      · rw [if_pos hxd] at hu
        exact ih.sep x h u (by rw [if_pos hxd]; exact List.mem_cons_of_mem s hu)
      · rw [if_neg hxd] at hu
        exact ih.sep x h u (by rw [if_neg hxd]; exact hu)
    · rw [List.mem_singleton.mp h] at hu ⊢
      dsimp only at hu ⊢
      left
      exact hrest_lt u hu
  · rcases ih.slot0 with h | h
    · exact Or.inl h
    · obtain ⟨x, hx1, hx2, hx3⟩ := h
      exact Or.inr ⟨x, List.mem_append_left _ hx1, hx2, hx3⟩

/-- Every reachable search state satisfies the full invariant. -/
theorem trace_inv {n : ℕ} (hn : 1 ≤ n) (hn32 : n ≤ 32) {c : Ctx} {s0 s1 : List ℕ}
    {arcs : List Arc} (h : Trace n c s0 s1 arcs) : TraceInv n c s0 s1 arcs := by
  induction h with
  | root => exact inv_root n hn
  | openL f ht hk hf hd => exact inv_openL (by assumption) hk hf hd
  | openR f ht hk hf hd => exact inv_openR (by assumption) hk hf hd
  | closeL f ht hk hf => exact inv_closeL hn32 (by assumption) hk hf
  | closeR f ht hk hf => exact inv_closeR hn32 (by assumption) hk hf

theorem reach_root (n : ℕ) : Reach n (applyFrame n rootFrame (initCtx n)) :=
  ⟨[0], [], [], Trace.root⟩

theorem reach_child {n : ℕ} {c : Ctx} {g : Frame} (hr : Reach n c) (hk : c.k ≠ 2 * n)
    (hg : g ∈ childFrames n c) : Reach n (applyFrame n g c) := by
  obtain ⟨s0, s1, arcs, ht⟩ := hr
  unfold childFrames at hg
  rcases List.mem_append.mp hg with hg1 | hg1
  · rcases List.mem_append.mp hg1 with hg2 | hg2
    · obtain ⟨hno, he⟩ := mem_openChildren hg2
      rcases he with he | he
      · exact ⟨c.k :: s0, s1, arcs, Trace.openL g ht hk hg2 (by rw [he])⟩
      · exact ⟨s0, c.k :: s1, arcs, Trace.openR g ht hk hg2 (by rw [he])⟩
    · exact ⟨s0, s1.tail, _, Trace.closeR g ht hk hg2⟩
  · exact ⟨s0.tail, s1, _, Trace.closeL g ht hk hg1⟩

/-- Every solution produced by the recursive traversal comes from a completed
(depth 2n) reachable state whose `pos` it records. -/
theorem mem_dfsRec_trace (n W t : ℕ) : ∀ (fuel : ℕ) (f : Frame) (c : Ctx) (sol : List ℕ),
    Reach n (applyFrame n f c) → sol ∈ dfsRec n W t fuel f c →
    ∃ cf s0 s1 arcs, Trace n cf s0 s1 arcs ∧ cf.k = 2 * n ∧ sol = solOf n cf.pos := by
  intro fuel
  induction fuel with
  | zero => intro f c sol _ hmem; exact absurd hmem (List.not_mem_nil sol)
  | succ fuel ih =>
    intro f c sol hr hmem
    rw [dfsRec_succ] at hmem
    by_cases hterm : (applyFrame n f c).k = 2 * n
    · rw [if_pos hterm] at hmem
      obtain ⟨s0, s1, arcs, ht⟩ := hr
      exact ⟨applyFrame n f c, s0, s1, arcs, ht, hterm,
        (List.mem_singleton.mp hmem)⟩
    · rw [if_neg hterm] at hmem
      by_cases hab : abandons n W t (applyFrame n f c)
      · rw [if_pos hab] at hmem
        exact absurd hmem (List.not_mem_nil sol)
      · rw [if_neg hab] at hmem
        obtain ⟨l, hl, hsl⟩ := List.mem_flatten.mp hmem
        obtain ⟨g, hg, rfl⟩ := List.mem_map.mp hl
        exact ih g (applyFrame n f c) sol (reach_child hr hterm hg) hsl

theorem arcSlots_length (l : List Arc) : (arcSlots l).length = 2 * l.length := by
  induction l with
  | nil => rfl
  | cons x t ih => simp [arcSlots, ih]; omega

/-- At a completed state the opening stacks are empty, exactly n arcs were
closed, and their value indices enumerate 0..n-1. -/
theorem final_facts {n : ℕ} (hn : 1 ≤ n) (hn32 : n ≤ 32) {c : Ctx} {s0 s1 : List ℕ}
    {arcs : List Arc} (ht : Trace n c s0 s1 arcs) (hk : c.k = 2 * n) :
    s0 = [] ∧ s1 = [] ∧ arcs.length = n ∧ (∀ m, m < n → m ∈ arcs.map Arc.m) := by
  have inv := trace_inv hn hn32 ht
  have hlen := inv.tile.length_eq
  rw [List.length_append, List.length_append, arcSlots_length, List.length_range, hk]
    at hlen
  have hcard : (arcs.map Arc.m).toFinset.card = (arcs.map Arc.m).length :=
    List.toFinset_card_of_nodup inv.valsNodup
  have hsub : (arcs.map Arc.m).toFinset ⊆ Finset.range n := by
    intro m hm
    rw [List.mem_toFinset] at hm
    obtain ⟨x, hx, rfl⟩ := List.mem_map.mp hm
    rw [Finset.mem_range]
    exact inv.valsLt x hx
  have hle : arcs.length ≤ n := by
    have h1 := Finset.card_le_card hsub
    rw [hcard, Finset.card_range, List.length_map] at h1
    exact h1
  have hnoLe := inv.noLe
  have hnoEq := inv.noEq
  have hs0 : s0.length = 0 := by omega
  have hs1 : s1.length = 0 := by omega
  have hln : arcs.length = n := by omega
  refine ⟨List.length_eq_zero.mp hs0, List.length_eq_zero.mp hs1, hln, ?_⟩
  have heq : (arcs.map Arc.m).toFinset = Finset.range n := by
    apply Finset.eq_of_subset_of_card_le hsub
    rw [hcard, List.length_map, hln, Finset.card_range]
  intro m hm
  have : m ∈ (arcs.map Arc.m).toFinset := by
    rw [heq, Finset.mem_range]
    exact hm
  rwa [List.mem_toFinset] at this

/-- Every solution of the recursive traversal is a valid planar Langford
solution. -/
theorem dfsRec_valid {n W t : ℕ} (hn : 1 ≤ n) (hn32 : n ≤ 32) {sol : List ℕ}
    (h : sol ∈ dfsRec n W t (2 * n) rootFrame (initCtx n)) : ValidSolution n sol := by
  obtain ⟨cf, s0, s1, arcs, ht, hk, rfl⟩ :=
    mem_dfsRec_trace n W t (2 * n) rootFrame (initCtx n) _ (reach_root n) h
  have inv := trace_inv hn hn32 ht
  obtain ⟨hs0, hs1, hlen, hall⟩ := final_facts hn hn32 ht hk
  subst hs0 hs1
  refine ⟨by simp [solOf], arcs, hall, ?_, ?_, inv.ncL, inv.ncR, ?_⟩
  · intro x hx
    refine ⟨(inv.geom x hx).1, ?_⟩
    have hmn : x.m < n := inv.valsLt x hx
    have : (solOf n cf.pos).getD x.m 0 = cf.pos x.m := by
      unfold solOf
      rw [List.getD_eq_getElem?_getD]
      rw [List.getElem?_map]
      simp [List.getElem?_range hmn]
    rw [this]
    exact inv.posEq x hx
  · have h1 := inv.tile
    rw [List.append_nil, List.append_nil, hk] at h1
    exact h1
  · rcases inv.slot0 with h | h
    · exact absurd h (List.not_mem_nil 0)
    · exact h

/-! ### Congruence in the scalar state components -/

theorem core_eq_iff {c₁ c₂ : Ctx} (h : core c₁ = core c₂) :
    c₁.k = c₂.k ∧ c₁.avail = c₂.avail ∧ c₁.o0 = c₂.o0 ∧ c₁.o1 = c₂.o1 ∧
      c₁.no = c₂.no := by
  unfold core at h
  exact ⟨congrArg (·.1) h, congrArg (·.2.1) h, congrArg (·.2.2.1) h,
    congrArg (·.2.2.2.1) h, congrArg (·.2.2.2.2) h⟩

theorem applyFrame_core (n : ℕ) (f : Frame) {c₁ c₂ : Ctx} (h : core c₁ = core c₂) :
    core (applyFrame n f c₁) = core (applyFrame n f c₂) := by
  obtain ⟨h1, h2, h3, h4, h5⟩ := core_eq_iff h
  unfold applyFrame core
  by_cases hm : 0 ≤ f.m
  · simp only [if_pos hm, h2, h3, h4]
  · simp only [if_neg hm, h2, h3, h4]

theorem childFrames_core (n : ℕ) {c₁ c₂ : Ctx} (h : core c₁ = core c₂) :
    childFrames n c₁ = childFrames n c₂ := by
  obtain ⟨h1, h2, h3, h4, h5⟩ := core_eq_iff h
  unfold childFrames openChildren closeChild
  rw [h1, h2, h3, h4, h5]

theorem abandons_core (n W t : ℕ) {c₁ c₂ : Ctx} (h : core c₁ = core c₂) :
    abandons n W t c₁ ↔ abandons n W t c₂ := by
  obtain ⟨h1, h2, h3, h4, h5⟩ := core_eq_iff h
  unfold abandons stateHash
  rw [h1, h2, h3, h4]

/-! ### Structure of the child group -/

theorem openChildren_k {n : ℕ} {c : Ctx} {g : Frame} (h : g ∈ openChildren n c) :
    g.k = c.k := by
  rcases (mem_openChildren h).2 with he | he <;> rw [he]

theorem closeChild_k {n : ℕ} {c : Ctx} {d : Bool} {g : Frame}
    (h : g ∈ closeChild n c d) : g.k = c.k := by
  rw [(mem_closeChild h).2.1]

theorem childFrames_k {n : ℕ} {c : Ctx} {g : Frame} (h : g ∈ childFrames n c) :
    g.k = c.k := by
  unfold childFrames at h
  rcases List.mem_append.mp h with h1 | h1
  · rcases List.mem_append.mp h1 with h2 | h2
    · exact openChildren_k h2
    · exact closeChild_k h2
  · exact closeChild_k h1

theorem childFrames_good {n : ℕ} {c : Ctx} {g : Frame} (hn : 1 ≤ n) (hn32 : n ≤ 32)
    (hr : Reach n c) (h : g ∈ childFrames n c) : goodFrame n g c := by
  obtain ⟨s0, s1, arcs, ht⟩ := hr
  have hnoLe := (trace_inv hn hn32 ht).noLe
  unfold childFrames at h
  rcases List.mem_append.mp h with h1 | h1
  · rcases List.mem_append.mp h1 with h2 | h2
    · obtain ⟨hno, he⟩ := mem_openChildren h2
      rcases he with he | he <;>
        exact ⟨by rw [he], by rw [he], by rw [he]; exact hnoLe,
          Or.inl ⟨by rw [he], by rw [he]; exact hno⟩⟩
    · obtain ⟨_, he, hm0, hmn, hbit, _⟩ := mem_closeChild h2
      exact ⟨by rw [he], by rw [he], by rw [he]; exact hnoLe, Or.inr ⟨hm0, hmn, hbit⟩⟩
  · obtain ⟨_, he, hm0, hmn, hbit, _⟩ := mem_closeChild h1
    exact ⟨by rw [he], by rw [he], by rw [he]; exact hnoLe, Or.inr ⟨hm0, hmn, hbit⟩⟩

theorem openChildren_m {n : ℕ} {c : Ctx} {g : Frame} (h : g ∈ openChildren n c) :
    g.m = -1 := by
  rcases (mem_openChildren h).2 with he | he <;> rw [he]

theorem openChildren_length (n : ℕ) (c : Ctx) : (openChildren n c).length ≤ 2 := by
  unfold openChildren
  split <;> simp

theorem closeChild_length (n : ℕ) (c : Ctx) (d : Bool) : (closeChild n c d).length ≤ 1 := by
  unfold closeChild
  dsimp only
  split_ifs <;> simp

theorem childFrames_length (n : ℕ) (c : Ctx) : (childFrames n c).length ≤ 4 := by
  unfold childFrames
  rw [List.length_append, List.length_append]
  have h1 := openChildren_length n c
  have h2 := closeChild_length n c true
  have h3 := closeChild_length n c false
  omega

theorem childFrames_close_suffix {n : ℕ} {c : Ctx} {pre suf : List Frame} {g : Frame}
    (h : childFrames n c = pre ++ g :: suf) (hm : 0 ≤ g.m) : suf.length ≤ 1 := by
  have hdrop : (childFrames n c).drop pre.length = g :: suf := by
    rw [h, List.drop_left]
  have hOlen : (openChildren n c).length ≤ pre.length := by
    by_contra hlt
    push_neg at hlt
    have hsplit : childFrames n c =
        openChildren n c ++ (closeChild n c true ++ closeChild n c false) := by
      unfold childFrames
      rw [List.append_assoc]
    have hdrop2 : (childFrames n c).drop pre.length =
        (openChildren n c).drop pre.length ++
          (closeChild n c true ++ closeChild n c false) := by
      rw [hsplit, List.drop_append_of_le_length (le_of_lt hlt)]
    obtain ⟨a, tail, hcons⟩ :=
      List.exists_cons_of_ne_nil (l := (openChildren n c).drop pre.length)
        (by
          intro hnil
          have := congrArg List.length hnil
          rw [List.length_drop] at this
          simp at this
          omega)
    rw [hdrop, hcons] at hdrop2
    have hga : g = a := by
      have := congrArg (fun l => List.headD l g) hdrop2
      simpa using this
    have hamem : a ∈ openChildren n c := by
      have : a ∈ (openChildren n c).drop pre.length := by
        rw [hcons]; exact List.mem_cons_self a tail
      exact List.mem_of_mem_drop this
    have := openChildren_m (hga ▸ hamem)
    omega
  have hlen : (childFrames n c).length = pre.length + suf.length + 1 := by
    rw [h]
    simp
    omega
  have htot : (childFrames n c).length ≤ (openChildren n c).length + 2 := by
    unfold childFrames
    rw [List.length_append, List.length_append]
    have h2 := closeChild_length n c true
    have h3 := closeChild_length n c false
    omega
  omega

theorem applyFrame_k (n : ℕ) (f : Frame) (c : Ctx) : (applyFrame n f c).k = f.k + 1 := by
  unfold applyFrame
  split <;> rfl

theorem testBit_xor_one_shiftLeft_ne (x i j : ℕ) (h : j ≠ i) :
    (x ^^^ 1 <<< i).testBit j = x.testBit j := by
  rw [Nat.one_shiftLeft, Nat.testBit_xor,
    Nat.testBit_two_pow_of_ne (fun he => h he.symm), Bool.xor_false]

/-- Simulation, inner induction: running the machine through a suffix of a
child group consumes it and accumulates exactly the recursive results. -/
theorem simList (n W t : ℕ) (hn : 1 ≤ n) (hn32 : n ≤ 32) (fuel : ℕ)
    (IH : SimHyp n W t fuel) :
    ∀ (gs : List Frame) (c' : Ctx) (s : St) (rest : List Frame) (B : ℕ),
      (∃ pre, childFrames n c' = pre ++ gs) →
      s.stack = gs ++ rest → compat n s c' → Reach n c' → c'.k < 2 * n →
      2 * n - c'.k ≤ fuel → gs.length ≤ B →
      (∀ pre g suf, gs = pre ++ g :: suf →
        suf.length + stackBound n (applyFrame n g c') ≤ B) →
      ListPost n W t fuel gs c' s rest B := by
  intro gs
  induction gs with
  | nil =>
    intro c' s rest B _ hstk _ _ _ _ _ _
    unfold ListPost
    simp only [List.map_nil, List.sum_nil, List.flatten_nil, List.append_nil]
    rw [runM_zero]
    refine ⟨by simpa using hstk, rfl, fun j _ => rfl, fun j _ => rfl,
      fun m _ _ => rfl, ?_, ?_⟩
    · intro j hj
      interval_cases j
      rw [runM_zero, hstk]
      simp
    · intro j hj g hg
      interval_cases j
      rw [runM_zero, hstk] at hg
      exact Or.inl (by simpa using hg)
  | cons g gs' ihl =>
    intro c' s rest B hsuf hstk hcompat hreach hklt hfuel hB1 hB2
    obtain ⟨pre0, hpre0⟩ := hsuf
    have hgmem : g ∈ childFrames n c' := by
      rw [hpre0]
      exact List.mem_append_right pre0 (List.mem_cons_self g gs')
    have hgood : goodFrame n g c' := childFrames_good hn hn32 hreach hgmem
    have hreachg : Reach n (applyFrame n g c') :=
      reach_child hreach (Nat.ne_of_lt hklt) hgmem
    have hpost := IH g c' s (gs' ++ rest) hfuel
      (by rw [hstk]; simp) hcompat hgood hreachg
    obtain ⟨hp1, hp2, hp3, hp4, hp5, hp6, hp7⟩ := hpost
    have hcompat2 : compat n (runM n W t (sizeF n W t fuel g c') s) c' :=
      ⟨by rw [hp3 c'.k (le_refl _)]; exact hcompat.1,
        by rw [hp4 (2 * c'.k) (by omega)]; exact hcompat.2.1,
        by rw [hp4 (2 * c'.k + 1) (le_refl _)]; exact hcompat.2.2.1,
        fun m hm hbit => by rw [hp5 m hm hbit]; exact hcompat.2.2.2 m hm hbit⟩
    have hB1' : gs'.length ≤ B := by
      simp only [List.length_cons] at hB1
      omega
    have hB2' : ∀ pre g' suf, gs' = pre ++ g' :: suf →
        suf.length + stackBound n (applyFrame n g' c') ≤ B := by
      intro pre g' suf he
      exact hB2 (g :: pre) g' suf (by rw [he]; rfl)
    have hlist := ihl c' (runM n W t (sizeF n W t fuel g c') s) rest B
      ⟨pre0 ++ [g], by rw [hpre0]; simp⟩ hp1 hcompat2 hreach hklt hfuel hB1' hB2'
    obtain ⟨hl1, hl2, hl3, hl4, hl5, hl6, hl7⟩ := hlist
    have hsum : ((g :: gs').map (fun g => sizeF n W t fuel g c')).sum =
        sizeF n W t fuel g c' + ((gs'.map (fun g => sizeF n W t fuel g c')).sum) := by
      simp
    have hrun : runM n W t (((g :: gs').map (fun g => sizeF n W t fuel g c')).sum) s =
        runM n W t ((gs'.map (fun g => sizeF n W t fuel g c')).sum)
          (runM n W t (sizeF n W t fuel g c') s) := by
      rw [hsum, runM_add]
    refine ⟨by rw [hrun]; exact hl1, ?_, ?_, ?_, ?_, ?_, ?_⟩
    · rw [hrun, hl2, hp2]
      simp
    · intro j hj
      rw [hrun, hl3 j hj, hp3 j hj]
    · intro j hj
      rw [hrun, hl4 j hj, hp4 j hj]
    · intro m hm hbit
      rw [hrun, hl5 m hm hbit, hp5 m hm hbit]
    · intro j hj
      by_cases hjS : j ≤ sizeF n W t fuel g c'
      · refine le_trans (hp6 j hjS) ?_
        have hs := hB2 [] g gs' rfl
        rw [List.length_append]
        omega
      · have hje : j = sizeF n W t fuel g c' +
            (j - sizeF n W t fuel g c') := by omega
        have hj2 : j - sizeF n W t fuel g c' ≤
            ((gs'.map (fun g => sizeF n W t fuel g c')).sum) := by
          rw [hsum] at hj
          omega
        rw [hje, runM_add]
        exact hl6 _ hj2
    · intro j hj g' hg'
      by_cases hjS : j ≤ sizeF n W t fuel g c'
      · rcases hp7 j hjS g' hg' with h | h
        · rcases List.mem_append.mp h with h1 | h1
          · right
            have : g' ∈ childFrames n c' := by
              rw [hpre0]
              exact List.mem_append_right pre0 (List.mem_cons_of_mem g h1)
            rw [childFrames_k this]
            exact hklt
          · exact Or.inl h1
        · exact Or.inr h
      · have hje : j = sizeF n W t fuel g c' +
            (j - sizeF n W t fuel g c') := by omega
        have hj2 : j - sizeF n W t fuel g c' ≤
            ((gs'.map (fun g => sizeF n W t fuel g c')).sum) := by
          rw [hsum] at hj
          omega
        rw [hje, runM_add] at hg'
        exact hl7 _ hj2 g' hg'

theorem stepM_cons (n W t : ℕ) (s : St) (f : Frame) (rest : List Frame)
    (h : s.stack = f :: rest) :
    stepM n W t s =
      (if (applyFrame n f (readCtx f s)).k = 2 * n then
        { writeSt n f s rest with
            res := s.res ++ [solOf n (applyFrame n f (readCtx f s)).pos] }
      else if abandons n W t (applyFrame n f (readCtx f s)) then writeSt n f s rest
      else { writeSt n f s rest with
              stack := childFrames n (applyFrame n f (readCtx f s)) ++ rest }) := by
  unfold stepM
  rw [h]
  rfl

theorem applyFrame_no (n : ℕ) (f : Frame) (c : Ctx) :
    (applyFrame n f c).no = if 0 ≤ f.m then f.no else f.no + 1 := by
  unfold applyFrame
  by_cases hm : 0 ≤ f.m
  · rw [if_pos hm, if_pos hm]
  · rw [if_neg hm, if_neg hm]

/-- Stack-budget accounting for one child group: the group fits in the parent's
budget, and after consuming any prefix the remaining siblings plus the selected
child's own budget still fit. -/
theorem childFrames_bound {n : ℕ} (hn : 1 ≤ n) (hn32 : n ≤ 32) {c : Ctx}
    (hr : Reach n c) (hk : c.k < 2 * n) :
    (childFrames n c).length ≤ stackBound n c ∧
    ∀ pre g suf, childFrames n c = pre ++ g :: suf →
      suf.length + stackBound n (applyFrame n g c) ≤ stackBound n c := by
  have hnoLe : c.no ≤ n := by
    obtain ⟨s0, s1, arcs, ht⟩ := hr
    exact (trace_inv hn hn32 ht).noLe
  constructor
  · by_cases hno : c.no < n
    · have h4 := childFrames_length n c
      unfold stackBound
      omega
    · have hO : openChildren n c = [] := by
        unfold openChildren
        rw [if_neg hno]
      have h2 : (childFrames n c).length ≤ 2 := by
        unfold childFrames
        rw [hO, List.nil_append, List.length_append]
        have hc1 := closeChild_length n c true
        have hc0 := closeChild_length n c false
        omega
      unfold stackBound
      omega
  · intro pre g suf he
    have hgmem : g ∈ childFrames n c := by
      rw [he]
      exact List.mem_append_right pre (List.mem_cons_self g suf)
    have hgk : g.k = c.k := childFrames_k hgmem
    have hgood : goodFrame n g c := childFrames_good hn hn32 hr hgmem
    have hgno : g.no = c.no := hgood.2.1
    have hak : (applyFrame n g c).k = g.k + 1 := applyFrame_k n g c
    have hano := applyFrame_no n g c
    by_cases hm : 0 ≤ g.m
    · have hsuf1 : suf.length ≤ 1 := childFrames_close_suffix he hm
      rw [if_pos hm] at hano
      unfold stackBound
      rw [hak, hano, hgno, hgk]
      omega
    · have hgopen : g ∈ openChildren n c := by
        unfold childFrames at hgmem
        rcases List.mem_append.mp hgmem with h1 | h1
        · rcases List.mem_append.mp h1 with h2 | h2
          · exact h2
          · exact absurd (mem_closeChild h2).2.2.1 hm
        · exact absurd (mem_closeChild h1).2.2.1 hm
      have hnolt : c.no < n := (mem_openChildren hgopen).1
      have hsuf3 : suf.length ≤ 3 := by
        have h4 := childFrames_length n c
        rw [he, List.length_append, List.length_cons] at h4
        omega
      rw [if_neg hm] at hano
      unfold stackBound
      rw [hak, hano, hgno, hgk]
      omega

/-- Simulation, outer induction: the machine spends exactly `sizeF` iterations
on a frame's subtree and the `SimPost` contract holds for every adequately
fueled frame. -/
theorem simAll (n W t : ℕ) (hn : 1 ≤ n) (hn32 : n ≤ 32) :
    ∀ fuel, SimHyp n W t fuel := by
  intro fuel
  induction fuel with
  | zero =>
    intro f c s rest hfuel hstk hcompat hgood hreach
    exfalso
    obtain ⟨s0, s1, arcs, ht⟩ := hreach
    have hkle := (trace_inv hn hn32 ht).kle
    have hak := applyFrame_k n f c
    have hfk := hgood.1
    omega
  | succ fuel IH =>
    intro f c s rest hfuel hstk hcompat hgood hreach
    have hfk : f.k = c.k := hgood.1
    have hfno : f.no = c.no := hgood.2.1
    have hcore0 : core (readCtx f s) = core c := by
      unfold readCtx core
      dsimp only
      rw [hfk, hfno, hcompat.1, hcompat.2.1, hcompat.2.2.1]
    have hcoreM : core (applyFrame n f (readCtx f s)) = core (applyFrame n f c) :=
      applyFrame_core n f hcore0
    obtain ⟨hMk, hMav, hMo0, hMo1, hMno⟩ := core_eq_iff hcoreM
    have hMposS : ∀ m, m < n → c.avail.testBit m = false →
        (applyFrame n f (readCtx f s)).pos m = s.pos m := by
      intro m hm hbit
      by_cases hfm : 0 ≤ f.m
      · rcases hgood.2.2.2 with hg1 | hg1
        · exfalso
          rw [hg1.1] at hfm
          omega
        · have htb : c.avail.testBit f.m.toNat = true :=
            (shiftRight_mod_two_eq_one c.avail f.m.toNat).mp hg1.2.2
          have hne : m ≠ f.m.toNat := by
            intro he
            rw [he] at hbit
            rw [hbit] at htb
            exact Bool.noConfusion htb
          rw [applyFrame_closeCase n f (readCtx f s) hfm]
          dsimp only
          rw [if_neg hne]
          rfl
      · rw [applyFrame_openCase n f (readCtx f s) (by omega)]
        rfl
    have hMpos : ∀ m, m < n → (applyFrame n f c).avail.testBit m = false →
        (applyFrame n f (readCtx f s)).pos m = (applyFrame n f c).pos m := by
      intro m hm hbit
      by_cases hfm : 0 ≤ f.m
      · rw [applyFrame_closeCase n f (readCtx f s) hfm,
          applyFrame_closeCase n f c hfm]
        dsimp only
        by_cases hmm : m = f.m.toNat
        · rw [if_pos hmm, if_pos hmm]
        · rw [if_neg hmm, if_neg hmm]
          apply hcompat.2.2.2 m hm
          rw [applyFrame_closeCase n f c hfm] at hbit
          dsimp only at hbit
          rw [testBit_xor_one_shiftLeft_ne c.avail f.m.toNat m hmm] at hbit
          exact hbit
      · rw [applyFrame_openCase n f (readCtx f s) (by omega),
          applyFrame_openCase n f c (by omega)]
        dsimp only
        apply hcompat.2.2.2 m hm
        rw [applyFrame_openCase n f c (by omega)] at hbit
        exact hbit
    have hak : (applyFrame n f c).k = f.k + 1 := applyFrame_k n f c
    have hstep := stepM_cons n W t s f rest hstk
    have hrun1 : runM n W t 1 s = stepM n W t s := by
      rw [show (1 : ℕ) = 0 + 1 from rfl, runM_succ, runM_zero]
    have hkle : (applyFrame n f c).k ≤ 2 * n := by
      obtain ⟨s0, s1, arcs, ht⟩ := hreach
      exact (trace_inv hn hn32 ht).kle
    unfold SimPost
    by_cases hterm : (applyFrame n f c).k = 2 * n
    · -- terminal: record a solution
      have hsz : sizeF n W t (fuel + 1) f c = 1 := by
        rw [sizeF_succ, if_pos hterm]
      have hposM : (applyFrame n f (readCtx f s)).k = 2 * n := by
        rw [hMk]
        exact hterm
      rw [if_pos hposM] at hstep
      have hbitAll : ∀ m, m < n → (applyFrame n f c).avail.testBit m = false := by
        obtain ⟨s0, s1, arcs, ht⟩ := hreach
        have inv := trace_inv hn hn32 ht
        have hf := final_facts hn hn32 ht hterm
        intro m hm
        cases hB : (applyFrame n f c).avail.testBit m
        · rfl
        · exact absurd (hf.2.2.2 m hm) ((inv.availBit m).mp hB).2
      have hsolEq : solOf n (applyFrame n f (readCtx f s)).pos =
          solOf n (applyFrame n f c).pos := by
        unfold solOf
        refine List.map_congr_left ?_
        intro m hm
        exact hMpos m (List.mem_range.mp hm) (hbitAll m (List.mem_range.mp hm))
      refine ⟨?_, ?_, ?_, ?_, ?_, ?_, ?_⟩
      · rw [hsz, hrun1, hstep]
        rfl
      · rw [hsz, hrun1, hstep, dfsRec_succ, if_pos hterm]
        show s.res ++ [solOf n (applyFrame n f (readCtx f s)).pos] = _
        rw [hsolEq]
      · intro j hj
        rw [hsz, hrun1, hstep]
        show (if j = f.k + 1 then _ else s.avl j) = s.avl j
        rw [if_neg (by omega)]
      · intro j hj
        rw [hsz, hrun1, hstep]
        show (if j = 2 * f.k + 2 then _ else if j = 2 * f.k + 3 then _ else s.opn j) =
          s.opn j
        rw [if_neg (by omega), if_neg (by omega)]
      · intro m hm hbit
        rw [hsz, hrun1, hstep]
        exact hMposS m hm hbit
      · intro j hj
        rw [hsz] at hj
        interval_cases j
        · rw [runM_zero, hstk]
          unfold stackBound
          simp only [List.length_cons]
          omega
        · rw [hrun1, hstep]
          show rest.length ≤ rest.length + stackBound n (applyFrame n f c)
          exact Nat.le_add_right _ _
      · intro j hj g hg
        rw [hsz] at hj
        interval_cases j
        · rw [runM_zero, hstk] at hg
          rcases List.mem_cons.mp hg with h1 | h1
          · right
            rw [h1]
            omega
          · exact Or.inl h1
        · rw [hrun1, hstep] at hg
          exact Or.inl hg
    · by_cases hab : abandons n W t (applyFrame n f c)
      · -- abandon: a foreign partition
        have hsz : sizeF n W t (fuel + 1) f c = 1 := by
          rw [sizeF_succ, if_neg hterm, if_pos hab]
        have hposM : ¬(applyFrame n f (readCtx f s)).k = 2 * n := by
          rw [hMk]
          exact hterm
        have habM : abandons n W t (applyFrame n f (readCtx f s)) :=
          (abandons_core n W t hcoreM).mpr hab
        rw [if_neg hposM, if_pos habM] at hstep
        refine ⟨?_, ?_, ?_, ?_, ?_, ?_, ?_⟩
        · rw [hsz, hrun1, hstep]
          rfl
        · rw [hsz, hrun1, hstep, dfsRec_succ, if_neg hterm, if_pos hab]
          show s.res = s.res ++ []
          rw [List.append_nil]
        · intro j hj
          rw [hsz, hrun1, hstep]
          show (if j = f.k + 1 then _ else s.avl j) = s.avl j
          rw [if_neg (by omega)]
        · intro j hj
          rw [hsz, hrun1, hstep]
          show (if j = 2 * f.k + 2 then _ else if j = 2 * f.k + 3 then _ else s.opn j) =
            s.opn j
          rw [if_neg (by omega), if_neg (by omega)]
        · intro m hm hbit
          rw [hsz, hrun1, hstep]
          exact hMposS m hm hbit
        · intro j hj
          rw [hsz] at hj
          interval_cases j
          · rw [runM_zero, hstk]
            unfold stackBound
            simp only [List.length_cons]
            omega
          · rw [hrun1, hstep]
            show rest.length ≤ rest.length + stackBound n (applyFrame n f c)
            exact Nat.le_add_right _ _
        · intro j hj g hg
          rw [hsz] at hj
          interval_cases j
          · rw [runM_zero, hstk] at hg
            rcases List.mem_cons.mp hg with h1 | h1
            · right
              rw [h1]
              omega
            · exact Or.inl h1
          · rw [hrun1, hstep] at hg
            exact Or.inl hg
      · -- interior: push the children and run the group
        have hsz : sizeF n W t (fuel + 1) f c = 1 +
            ((childFrames n (applyFrame n f c)).map
              (fun g => sizeF n W t fuel g (applyFrame n f c))).sum := by
          rw [sizeF_succ, if_neg hterm, if_neg hab]
        have hposM : ¬(applyFrame n f (readCtx f s)).k = 2 * n := by
          rw [hMk]
          exact hterm
        have habM : ¬abandons n W t (applyFrame n f (readCtx f s)) :=
          fun h => hab ((abandons_core n W t hcoreM).mp h)
        rw [if_neg hposM, if_neg habM] at hstep
        have hcfM : childFrames n (applyFrame n f (readCtx f s)) =
            childFrames n (applyFrame n f c) := childFrames_core n hcoreM
        have hs2stack : (stepM n W t s).stack =
            childFrames n (applyFrame n f c) ++ rest := by
          rw [hstep]
          show childFrames n (applyFrame n f (readCtx f s)) ++ rest = _
          rw [hcfM]
        have hs2res : (stepM n W t s).res = s.res := by
          rw [hstep]
          rfl
        have hs2avl : ∀ j, (stepM n W t s).avl j =
            if j = f.k + 1 then (applyFrame n f (readCtx f s)).avail else s.avl j := by
          intro j
          rw [hstep]
          rfl
        have hs2opn : ∀ j, (stepM n W t s).opn j =
            if j = 2 * f.k + 2 then (applyFrame n f (readCtx f s)).o0
            else if j = 2 * f.k + 3 then (applyFrame n f (readCtx f s)).o1
            else s.opn j := by
          intro j
          rw [hstep]
          rfl
        have hs2pos : (stepM n W t s).pos = (applyFrame n f (readCtx f s)).pos := by
          rw [hstep]
          rfl
        have hcompat2 : compat n (stepM n W t s) (applyFrame n f c) := by
          refine ⟨?_, ?_, ?_, ?_⟩
          · rw [hs2avl, hak, hfk, if_pos rfl]
            · exact hMav
          · rw [hs2opn, hak, hfk]
            rw [if_pos (by omega)]
            exact hMo0
          · rw [hs2opn, hak, hfk]
            rw [if_neg (by omega), if_pos (by omega)]
            exact hMo1
          · intro m hm hbit
            rw [hs2pos]
            exact hMpos m hm hbit
        · have hlt : (applyFrame n f c).k < 2 * n := lt_of_le_of_ne hkle hterm
          have hfuel' : 2 * n - (applyFrame n f c).k ≤ fuel := by omega
          have hbd := childFrames_bound hn hn32 hreach hlt
          have hlist := simList n W t hn hn32 fuel IH
            (childFrames n (applyFrame n f c)) (applyFrame n f c)
            (stepM n W t s) rest (stackBound n (applyFrame n f c))
            ⟨[], rfl⟩ hs2stack hcompat2 hreach hlt hfuel' hbd.1 hbd.2
          obtain ⟨hl1, hl2, hl3, hl4, hl5, hl6, hl7⟩ := hlist
          have hbit' : ∀ m, m < n → c.avail.testBit m = false →
              (applyFrame n f c).avail.testBit m = false := by
            intro m hm hbit
            by_cases hfm : 0 ≤ f.m
            · rw [applyFrame_closeCase n f c hfm]
              dsimp only
              rcases hgood.2.2.2 with hg1 | hg1
              · exfalso
                rw [hg1.1] at hfm
                omega
              · have htb : c.avail.testBit f.m.toNat = true :=
                  (shiftRight_mod_two_eq_one c.avail f.m.toNat).mp hg1.2.2
                have hne : m ≠ f.m.toNat := by
                  intro he
                  rw [he] at hbit
                  rw [hbit] at htb
                  exact Bool.noConfusion htb
                rw [testBit_xor_one_shiftLeft_ne c.avail f.m.toNat m hne]
                exact hbit
            · rw [applyFrame_openCase n f c (by omega)]
              exact hbit
          refine ⟨?_, ?_, ?_, ?_, ?_, ?_, ?_⟩
          · rw [hsz, runM_add, hrun1]
            exact hl1
          · rw [hsz, runM_add, hrun1, hl2, hs2res, dfsRec_succ, if_neg hterm,
              if_neg hab]
          · intro j hj
            rw [hsz, runM_add, hrun1, hl3 j (by omega)]
            rw [hs2avl, if_neg (by omega)]
          · intro j hj
            rw [hsz, runM_add, hrun1, hl4 j (by omega)]
            rw [hs2opn, if_neg (by omega), if_neg (by omega)]
          · intro m hm hbit
            rw [hsz, runM_add, hrun1, hl5 m hm (hbit' m hm hbit), hs2pos]
            exact hMposS m hm hbit
          · intro j hj
            rcases Nat.eq_zero_or_pos j with hj0 | hj0
            · rw [hj0, runM_zero, hstk]
              unfold stackBound
              simp only [List.length_cons]
              omega
            · have hje : j = 1 + (j - 1) := by omega
              rw [hje, runM_add, hrun1]
              refine hl6 (j - 1) ?_
              rw [hsz] at hj
              omega
          · intro j hj g hg
            rcases Nat.eq_zero_or_pos j with hj0 | hj0
            · rw [hj0, runM_zero, hstk] at hg
              rcases List.mem_cons.mp hg with h1 | h1
              · right
                rw [h1]
                omega
              · exact Or.inl h1
            · have hje : j = 1 + (j - 1) := by omega
              rw [hje, runM_add, hrun1] at hg
              refine hl7 (j - 1) ?_ g hg
              rw [hsz] at hj
              omega

/-- The root instantiation of the simulation contract. -/
theorem simRoot (n W t : ℕ) (hn : 1 ≤ n) (hn32 : n ≤ 32) :
    SimPost n W t (2 * n) rootFrame (initCtx n) (initSt n) [] :=
  simAll n W t hn hn32 (2 * n) rootFrame (initCtx n) (initSt n) []
    (by omega) rfl
    ⟨rfl, rfl, rfl, fun m _ _ => rfl⟩
    ⟨rfl, rfl, Nat.zero_le n, Or.inl ⟨rfl, hn⟩⟩
    (reach_root n)

/-- The explicit-stack machine computes exactly the recursive traversal. -/
theorem dfs_eq_dfsRec (n W t : ℕ) (hn : 1 ≤ n) (hn32 : n ≤ 32) :
    dfs n W t = dfsRec n W t (2 * n) rootFrame (initCtx n) := by
  have h := simRoot n W t hn hn32
  unfold dfs
  rw [h.2.1]
  exact List.nil_append _

theorem rootBound (n : ℕ) (hn : 1 ≤ n) :
    stackBound n (applyFrame n rootFrame (initCtx n)) = 4 * n - 2 := by
  have hk1 : (applyFrame n rootFrame (initCtx n)).k = 1 := by
    rw [applyFrame_k]
    rfl
  have hno1 : (applyFrame n rootFrame (initCtx n)).no = 1 := by
    rw [applyFrame_no]
    rfl
  unfold stackBound
  rw [hk1, hno1]
  omega

/-- At every point of the machine's run, the stack holds at most `4n - 2`
frames and every frame on it carries a slot index below `2n`. -/
theorem machine_stack_bound (n W t : ℕ) (hn : 1 ≤ n) (hn32 : n ≤ 32) (j : ℕ) :
    (runM n W t j (initSt n)).stack.length ≤ 4 * n - 2 ∧
    ∀ g ∈ (runM n W t j (initSt n)).stack, g.k < 2 * n := by
  have h := simRoot n W t hn hn32
  have hS := h.1
  have hlen := h.2.2.2.2.2.1
  have hfr := h.2.2.2.2.2.2
  by_cases hj : j ≤ sizeF n W t (2 * n) rootFrame (initCtx n)
  · refine ⟨(hlen j hj).trans ?_, fun g hg =>
      (hfr j hj g hg).resolve_left (List.not_mem_nil g)⟩
    rw [rootBound n hn]
    simp
  · have hje : j = sizeF n W t (2 * n) rootFrame (initCtx n) +
        (j - sizeF n W t (2 * n) rootFrame (initCtx n)) := by omega
    rw [hje, runM_add, runM_nil n W t _ _ hS]
    refine ⟨(hlen _ (le_refl _)).trans ?_, fun g hg =>
      (hfr _ (le_refl _) g hg).resolve_left (List.not_mem_nil g)⟩
    rw [rootBound n hn]
    simp

/-! ### The hash partition -/

/-- Past the partition depth the traversal no longer depends on the worker
identity: the abandon test only fires at `k = k_limit` and `k` only grows. -/
theorem dfsRec_deep (n W t : ℕ) :
    ∀ (fuel : ℕ) (f : Frame) (c : Ctx), klimit n < ((applyFrame n f c).k : ℤ) →
      dfsRec n W t fuel f c = dfsRec n 1 0 fuel f c := by
  intro fuel
  induction fuel with
  | zero => intro f c _; rfl
  | succ fuel ih =>
    intro f c hk
    rw [dfsRec_succ, dfsRec_succ]
    by_cases hterm : (applyFrame n f c).k = 2 * n
    · rw [if_pos hterm, if_pos hterm]
    · rw [if_neg hterm, if_neg hterm]
      have habW : ¬abandons n W t (applyFrame n f c) := by
        intro h
        have := h.2.1
        omega
      have hab1 : ¬abandons n 1 0 (applyFrame n f c) := by
        intro h
        have := h.1
        omega
      rw [if_neg habW, if_neg hab1]
      congr 1
      refine List.map_congr_left ?_
      intro g hg
      refine ih g (applyFrame n f c) ?_
      have h1 : g.k = (applyFrame n f c).k := childFrames_k hg
      have h2 := applyFrame_k n g (applyFrame n f c)
      rw [h2, h1]
      push_cast
      omega

/-- Every solution a worker records is also recorded by the unpartitioned
single-worker traversal. -/
theorem mem_dfsRec_one (n W t : ℕ) :
    ∀ (fuel : ℕ) (f : Frame) (c : Ctx) (sol : List ℕ),
      sol ∈ dfsRec n W t fuel f c → sol ∈ dfsRec n 1 0 fuel f c := by
  intro fuel
  induction fuel with
  | zero => intro f c sol h; exact absurd h (List.not_mem_nil sol)
  | succ fuel ih =>
    intro f c sol h
    rw [dfsRec_succ] at h ⊢
    by_cases hterm : (applyFrame n f c).k = 2 * n
    · rw [if_pos hterm] at h ⊢
      exact h
    · rw [if_neg hterm] at h ⊢
      have hab1 : ¬abandons n 1 0 (applyFrame n f c) := by
        intro hh
        have := hh.1
        omega
      rw [if_neg hab1]
      by_cases habW : abandons n W t (applyFrame n f c)
      · rw [if_pos habW] at h
        exact absurd h (List.not_mem_nil sol)
      · rw [if_neg habW] at h
        rw [List.mem_flatten] at h ⊢
        obtain ⟨l, hl, hsl⟩ := h
        rw [List.mem_map] at hl
        obtain ⟨g, hg, rfl⟩ := hl
        exact ⟨dfsRec n 1 0 fuel g (applyFrame n f c), List.mem_map_of_mem _ hg,
          ih g (applyFrame n f c) sol hsl⟩

/-- Every solution of the unpartitioned traversal is recorded by some worker
`t < W`: the worker owning the unique partition-depth ancestor of its path. -/
theorem mem_dfsRec_exists (n W : ℕ) (hW : 1 ≤ W) :
    ∀ (fuel : ℕ) (f : Frame) (c : Ctx) (sol : List ℕ),
      sol ∈ dfsRec n 1 0 fuel f c → ∃ t, t < W ∧ sol ∈ dfsRec n W t fuel f c := by
  intro fuel
  induction fuel with
  | zero => intro f c sol h; exact absurd h (List.not_mem_nil sol)
  | succ fuel ih =>
    intro f c sol h
    rw [dfsRec_succ] at h
    by_cases hterm : (applyFrame n f c).k = 2 * n
    · rw [if_pos hterm] at h
      refine ⟨0, hW, ?_⟩
      rw [dfsRec_succ, if_pos hterm]
      exact h
    · rw [if_neg hterm] at h
      have hab1 : ¬abandons n 1 0 (applyFrame n f c) := by
        intro hh
        have := hh.1
        omega
      rw [if_neg hab1, List.mem_flatten] at h
      obtain ⟨l, hl, hsl⟩ := h
      rw [List.mem_map] at hl
      obtain ⟨g, hg, rfl⟩ := hl
      have hgdeep : klimit n < ((applyFrame n g (applyFrame n f c)).k : ℤ) →
          ∀ t', sol ∈ dfsRec n W t' fuel g (applyFrame n f c) := by
        intro hdeep t'
        rw [dfsRec_deep n W t' fuel g (applyFrame n f c) hdeep]
        exact hsl
      by_cases hkl : ((applyFrame n f c).k : ℤ) = klimit n
      · refine ⟨stateHash (applyFrame n f c) % W, Nat.mod_lt _ (by omega), ?_⟩
        have habO : ¬abandons n W (stateHash (applyFrame n f c) % W)
            (applyFrame n f c) := fun hh => hh.2.2 rfl
        rw [dfsRec_succ, if_neg hterm, if_neg habO, List.mem_flatten]
        refine ⟨_, List.mem_map_of_mem _ hg, ?_⟩
        refine hgdeep ?_ _
        have h1 : g.k = (applyFrame n f c).k := childFrames_k hg
        have h2 := applyFrame_k n g (applyFrame n f c)
        rw [h2, h1]
        push_cast
        omega
      · obtain ⟨t, ht, hmem⟩ := ih g (applyFrame n f c) sol hsl
        refine ⟨t, ht, ?_⟩
        rw [dfsRec_succ, if_neg hterm, if_neg (fun hh => hkl hh.2.1), List.mem_flatten]
        exact ⟨_, List.mem_map_of_mem _ hg, hmem⟩

/-- Partition completeness at the ledger level: the union across the W workers
holds the same solutions as the single unpartitioned worker. -/
theorem mem_ledgerW (n W : ℕ) (hn : 1 ≤ n) (hn32 : n ≤ 32) (hW : 1 ≤ W)
    (sol : List ℕ) : sol ∈ ledgerW n W ↔ sol ∈ ledgerW n 1 := by
  unfold ledgerW
  constructor
  · intro h
    rw [List.mem_flatten] at h
    obtain ⟨l, hl, hsl⟩ := h
    rw [List.mem_map] at hl
    obtain ⟨t, _, rfl⟩ := hl
    rw [List.mem_flatten]
    refine ⟨dfs n 1 0, List.mem_map_of_mem _ (by simp), ?_⟩
    rw [dfs_eq_dfsRec n 1 0 hn hn32]
    rw [dfs_eq_dfsRec n W t hn hn32] at hsl
    exact mem_dfsRec_one n W t _ _ _ sol hsl
  · intro h
    rw [List.mem_flatten] at h
    obtain ⟨l, hl, hsl⟩ := h
    rw [List.mem_map] at hl
    obtain ⟨t, _, rfl⟩ := hl
    rw [dfs_eq_dfsRec n 1 t hn hn32] at hsl
    have hone : sol ∈ dfsRec n 1 0 (2 * n) rootFrame (initCtx n) := by
      exact mem_dfsRec_one n 1 t _ _ _ sol hsl
    obtain ⟨t', ht', hmem⟩ := mem_dfsRec_exists n W hW (2 * n) rootFrame (initCtx n) sol hone
    rw [List.mem_flatten]
    refine ⟨dfs n W t', List.mem_map_of_mem _ (List.mem_range.mpr ht'), ?_⟩
    rw [dfs_eq_dfsRec n W t' hn hn32]
    exact hmem

theorem ledgerW_toFinset (n W : ℕ) (hn : 1 ≤ n) (hn32 : n ≤ 32) (hW : 1 ≤ W) :
    (ledgerW n W).toFinset = (ledgerW n 1).toFinset := by
  ext sol
  rw [List.mem_toFinset, List.mem_toFinset]
  exact mem_ledgerW n W hn hn32 hW sol

/-- The distinct count does not depend on the worker count. -/
theorem solveWith_eq_one (W : ℕ) (hW : 1 ≤ W) (n : ℤ) :
    solveWith W n = solveWith 1 n := by
  unfold solveWith solveGen
  split
  · rfl
  · rename_i hguard
    push_neg at hguard
    have hn : 1 ≤ n.toNat := by omega
    have hn32 : n.toNat ≤ 32 := by
      have := hguard.2.1
      unfold kMaxN at this
      omega
    rw [unique_count_eq_card, unique_count_eq_card,
      ledgerW_toFinset n.toNat W hn hn32 hW]

theorem flatMap_comm {α β γ : Type} (ts : List α) (gs : List β) (A : α → β → List γ) :
    (ts.flatMap (fun t => gs.flatMap (fun g => A t g))).Perm
      (gs.flatMap (fun g => ts.flatMap (fun t => A t g))) := by
  induction ts with
  | nil => simp
  | cons t ts ih =>
    simp only [List.flatMap_cons]
    refine List.Perm.trans (List.Perm.append_left _ ih) ?_
    exact List.flatMap_append_perm gs (fun g => A t g) (fun g => ts.flatMap (fun t => A t g))

theorem flatten_map_eq_single {α β : Type} (l : List α) (f : α → List β)
    (a : α) (hmem : a ∈ l) (hnd : l.Nodup) (h : ∀ x ∈ l, x ≠ a → f x = []) :
    (l.map f).flatten = f a := by
  induction l with
  | nil => cases hmem
  | cons b l ih =>
    simp only [List.map_cons, List.flatten_cons]
    rcases List.mem_cons.mp hmem with hb | hb
    · have hfl : (l.map f).flatten = [] := by
        rw [List.flatten_eq_nil_iff]
        intro x hx
        rw [List.mem_map] at hx
        obtain ⟨y, hy, rfl⟩ := hx
        exact h y (List.mem_cons_of_mem _ hy)
          (fun he => (List.nodup_cons.mp hnd).1 (by rw [← hb, ← he]; exact hy))
      rw [hfl, List.append_nil, hb]
    · have hfb : f b = [] := h b (List.mem_cons_self b l)
        (fun he => (List.nodup_cons.mp hnd).1 (he ▸ hb))
      rw [hfb, List.nil_append]
      exact ih hb (List.nodup_cons.mp hnd).2
        (fun x hx hxa => h x (List.mem_cons_of_mem _ hx) hxa)

/-- Multiplicity-faithful partition completeness below the partition depth:
when every complete path crosses depth `k_limit`, the W workers' outputs
together are a permutation of the single worker's output. -/
theorem partition_perm_rec (n W : ℕ) (hW : 1 ≤ W) (hkl2n : klimit n < 2 * n) :
    ∀ (fuel : ℕ) (f : Frame) (c : Ctx), ((applyFrame n f c).k : ℤ) ≤ klimit n →
      ((List.range W).flatMap (fun t => dfsRec n W t fuel f c)).Perm
        (dfsRec n 1 0 fuel f c) := by
  intro fuel
  induction fuel with
  | zero =>
    intro f c _
    simp [dfsRec_zero]
  | succ fuel ih =>
    intro f c hk
    have hterm : ¬(applyFrame n f c).k = 2 * n := by
      intro h
      rw [h] at hk
      push_cast at hk
      omega
    have hab1 : ¬abandons n 1 0 (applyFrame n f c) := by
      intro hh
      have := hh.1
      omega
    by_cases hkl : ((applyFrame n f c).k : ℤ) = klimit n
    · have ht0lt : stateHash (applyFrame n f c) % W < W := Nat.mod_lt _ (by omega)
      have hmain : ∀ t, t < W → dfsRec n W t (fuel + 1) f c =
          if t = stateHash (applyFrame n f c) % W
          then dfsRec n 1 0 (fuel + 1) f c else [] := by
        intro t ht
        by_cases hts : t = stateHash (applyFrame n f c) % W
        · rw [if_pos hts, dfsRec_succ, dfsRec_succ, if_neg hterm, if_neg hterm,
            if_neg hab1,
            if_neg (show ¬abandons n W t (applyFrame n f c) from
              fun hh => hh.2.2 hts.symm)]
          congr 1
          refine List.map_congr_left ?_
          intro g hg
          refine dfsRec_deep n W t fuel g (applyFrame n f c) ?_
          have h1 : g.k = (applyFrame n f c).k := childFrames_k hg
          have h2 := applyFrame_k n g (applyFrame n f c)
          rw [h2, h1]
          push_cast
          omega
        · have hW1 : 1 < W := by
            rcases Nat.lt_or_ge 1 W with h1 | h1
            · exact h1
            · exfalso
              have hw1 : W = 1 := by omega
              apply hts
              rw [hw1, Nat.mod_one]
              omega
          rw [if_neg hts, dfsRec_succ, if_neg hterm,
            if_pos (show abandons n W t (applyFrame n f c) from
              ⟨hW1, hkl, fun he => hts he.symm⟩)]
      have hflat : (List.range W).flatMap (fun t => dfsRec n W t (fuel + 1) f c) =
          dfsRec n 1 0 (fuel + 1) f c := by
        rw [List.flatMap_def]
        have hmc : (List.range W).map (fun t => dfsRec n W t (fuel + 1) f c) =
            (List.range W).map (fun t =>
              if t = stateHash (applyFrame n f c) % W
              then dfsRec n 1 0 (fuel + 1) f c else []) := by
          refine List.map_congr_left ?_
          intro t ht
          exact hmain t (List.mem_range.mp ht)
        rw [hmc, flatten_map_eq_single (List.range W) _
          (stateHash (applyFrame n f c) % W) (List.mem_range.mpr ht0lt)
          (List.nodup_range W) (fun x _ hx => if_neg hx), if_pos rfl]
      rw [hflat]
    · have hklt : ((applyFrame n f c).k : ℤ) < klimit n := lt_of_le_of_ne hk hkl
      have hstep : ∀ t, dfsRec n W t (fuel + 1) f c =
          (childFrames n (applyFrame n f c)).flatMap
            (fun g => dfsRec n W t fuel g (applyFrame n f c)) := by
        intro t
        rw [dfsRec_succ, if_neg hterm, if_neg (fun hh => hkl hh.2.1), List.flatMap_def]
      have hstep1 : dfsRec n 1 0 (fuel + 1) f c =
          (childFrames n (applyFrame n f c)).flatMap
            (fun g => dfsRec n 1 0 fuel g (applyFrame n f c)) := by
        rw [dfsRec_succ, if_neg hterm, if_neg hab1, List.flatMap_def]
      simp only [hstep, hstep1]
      refine List.Perm.trans (flatMap_comm (List.range W)
        (childFrames n (applyFrame n f c))
        (fun t g => dfsRec n W t fuel g (applyFrame n f c))) ?_
      refine List.Perm.flatMap_left _ ?_
      intro g hg
      refine ih g (applyFrame n f c) ?_
      have h1 : g.k = (applyFrame n f c).k := childFrames_k hg
      have h2 := applyFrame_k n g (applyFrame n f c)
      rw [h2, h1]
      push_cast
      omega

/-- Ledger-level permutation equivalence of the partitioned and unpartitioned
searches, valid whenever the partition depth is actually crossed. -/
theorem ledgerW_perm (n W : ℕ) (hn : 1 ≤ n) (hn32 : n ≤ 32) (hW : 1 ≤ W)
    (hkl : 1 ≤ klimit n) (hkl2n : klimit n < 2 * n) :
    (ledgerW n W).Perm (ledgerW n 1) := by
  unfold ledgerW
  have h1 : ∀ t, dfs n W t = dfsRec n W t (2 * n) rootFrame (initCtx n) :=
    fun t => dfs_eq_dfsRec n W t hn hn32
  have h2 : ((List.range W).map (fun t => dfs n W t)).flatten =
      (List.range W).flatMap (fun t => dfsRec n W t (2 * n) rootFrame (initCtx n)) := by
    rw [List.flatMap_def]
    congr 1
    exact List.map_congr_left (fun t _ => h1 t)
  rw [h2]
  have hroot : ((applyFrame n rootFrame (initCtx n)).k : ℤ) ≤ klimit n := by
    have hk1 : (applyFrame n rootFrame (initCtx n)).k = 1 := by
      rw [applyFrame_k]
      rfl
    rw [hk1]
    exact_mod_cast hkl
  refine List.Perm.trans (partition_perm_rec n W hW hkl2n (2 * n) rootFrame
    (initCtx n) hroot) ?_
  have h3 : ((List.range 1).map (fun t => dfs n 1 t)).flatten =
      dfsRec n 1 0 (2 * n) rootFrame (initCtx n) := by
    have hr1 : List.range 1 = [0] := rfl
    simp only [hr1, List.map_cons, List.map_nil, List.flatten_cons,
      List.flatten_nil, List.append_nil]
    exact dfs_eq_dfsRec n 1 0 hn hn32
  rw [h3]

/-! ### The fast evaluator agrees with the recursive traversal -/

theorem dfsE_zero (n n2 p2n bb k avail o0 o1 pos no : ℕ) :
    dfsE n n2 p2n bb 0 k avail o0 o1 pos no = [] := rfl

theorem dfsE_succ (n n2 p2n bb fuel k avail o0 o1 pos no : ℕ) :
    dfsE n n2 p2n bb (fuel + 1) k avail o0 o1 pos no =
      cond (k.beq n2) [pos]
        ((cond (no.blt n)
            (dfsE n n2 p2n bb fuel (k + 1) avail (o0 ||| bb >>> k) o1 pos (no + 1) ++
              dfsE n n2 p2n bb fuel (k + 1) avail o0 (o1 ||| bb >>> k) pos (no + 1)) []) ++
          (cond ((((o1 ^^^ (o1 &&& (o1 - 1))) <<< k) >>> (n2 + 1)).beq 0) []
            (cond ((((o1 ^^^ (o1 &&& (o1 - 1))) <<< k) >>> (n2 + 1)).blt p2n &&
                !(avail &&& (((o1 ^^^ (o1 &&& (o1 - 1))) <<< k) >>> (n2 + 1))).beq 0 &&
                (!(((o1 ^^^ (o1 &&& (o1 - 1))) <<< k) >>> (n2 + 1)).beq 1 || k.ble n))
              (dfsE n n2 p2n bb fuel (k + 1)
                (avail ^^^ ((((o1 ^^^ (o1 &&& (o1 - 1))) <<< k) >>> (n2 + 1))))
                o0 (o1 &&& (o1 - 1))
                (pos + k * (((o1 ^^^ (o1 &&& (o1 - 1))) <<< k) >>> (n2 + 1)) ^ 8) no)
              [])) ++
          (cond ((((o0 ^^^ (o0 &&& (o0 - 1))) <<< k) >>> (n2 + 1)).beq 0) []
            (cond ((((o0 ^^^ (o0 &&& (o0 - 1))) <<< k) >>> (n2 + 1)).blt p2n &&
                !(avail &&& (((o0 ^^^ (o0 &&& (o0 - 1))) <<< k) >>> (n2 + 1))).beq 0 &&
                (!(((o0 ^^^ (o0 &&& (o0 - 1))) <<< k) >>> (n2 + 1)).beq 1 || k.ble n))
              (dfsE n n2 p2n bb fuel (k + 1)
                (avail ^^^ ((((o0 ^^^ (o0 &&& (o0 - 1))) <<< k) >>> (n2 + 1))))
                (o0 &&& (o0 - 1)) o1
                (pos + k * (((o0 ^^^ (o0 &&& (o0 - 1))) <<< k) >>> (n2 + 1)) ^ 8) no)
              []))) := rfl

theorem two_pow_eq_one_iff (M : ℕ) : (2 : ℕ) ^ M = 1 ↔ M = 0 := by
  constructor
  · intro h
    by_contra hM
    have := Nat.one_lt_two_pow_iff.mpr hM
    omega
  · intro h
    rw [h]
    rfl

theorem pow_shiftRight (a b : ℕ) : (2 : ℕ) ^ a >>> b = if b ≤ a then 2 ^ (a - b) else 0 := by
  rw [Nat.shiftRight_eq_div_pow]
  split
  · exact Nat.pow_div (by assumption) (by norm_num)
  · exact Nat.div_eq_of_lt (Nat.pow_lt_pow_right (by norm_num) (by omega))

theorem pow_shiftLeft (e k : ℕ) : (2 : ℕ) ^ e <<< k = 2 ^ (e + k) := by
  rw [Nat.shiftLeft_eq, pow_add]

theorem cond_eq_ite {α : Type} (b : Bool) (x y : α) : cond b x y = if b = true then x else y := by
  cases b <;> simp

theorem packPos_congr (n : ℕ) (p q : ℕ → ℕ) (h : ∀ m, m < n → p m = q m) :
    packPos n p = packPos n q := by
  unfold packPos
  congr 1
  refine List.map_congr_left ?_
  intro m hm
  rw [h m (List.mem_range.mp hm)]

theorem packPos_succ (n : ℕ) (p : ℕ → ℕ) :
    packPos (n + 1) p = packPos n p + p n <<< (8 * n) := by
  unfold packPos
  rw [List.range_succ, List.map_append, List.sum_append]
  simp

theorem packPos_zero_fun (n : ℕ) : packPos n (fun _ => 0) = 0 := by
  unfold packPos
  refine List.sum_eq_zero ?_
  intro x hx
  rw [List.mem_map] at hx
  obtain ⟨m, _, rfl⟩ := hx
  exact Nat.zero_shiftLeft _

theorem packPos_update (n : ℕ) :
    ∀ (p : ℕ → ℕ) (M k : ℕ), M < n → p M = 0 →
      packPos n (fun j => if j = M then k else p j) =
        packPos n p + k * 2 ^ (8 * M) := by
  induction n with
  | zero => intro p M k hM _; exact absurd hM (Nat.not_lt_zero M)
  | succ n ih =>
    intro p M k hM h0
    rw [packPos_succ, packPos_succ]
    by_cases hMn : M = n
    · subst hMn
      have hpq : packPos M (fun j => if j = M then k else p j) = packPos M p :=
        packPos_congr M _ _ (fun m hm => if_neg (by omega))
      rw [if_pos rfl, hpq, h0, Nat.zero_shiftLeft, Nat.shiftLeft_eq]
      omega
    · dsimp only
      rw [if_neg (fun h => hMn h.symm), ih p M k (by omega) h0]
      omega

theorem packPos_lt (n : ℕ) : ∀ (p : ℕ → ℕ), (∀ m, m < n → p m < 256) →
    packPos n p < 2 ^ (8 * n) := by
  induction n with
  | zero =>
    intro p _
    show packPos 0 p < 2 ^ (8 * 0)
    norm_num
    rfl
  | succ n ih =>
    intro p h
    rw [packPos_succ, Nat.shiftLeft_eq]
    have h1 := ih p (fun m hm => h m (by omega))
    have h2 : p n ≤ 255 := by
      have := h n (by omega)
      omega
    have h3 : p n * 2 ^ (8 * n) ≤ 255 * 2 ^ (8 * n) := Nat.mul_le_mul_right _ h2
    have h4 : 2 ^ (8 * (n + 1)) = 256 * 2 ^ (8 * n) := by
      rw [show 8 * (n + 1) = 8 + 8 * n from by ring, pow_add]
      norm_num
    omega

theorem packPos_extract (n : ℕ) : ∀ (p : ℕ → ℕ) (j : ℕ), (∀ m, m < n → p m < 256) →
    j < n → (packPos n p >>> (8 * j)) % 256 = p j := by
  induction n with
  | zero => intro p j _ hj; exact absurd hj (Nat.not_lt_zero j)
  | succ n ih =>
    intro p j h hj
    rw [packPos_succ, Nat.shiftLeft_eq, Nat.shiftRight_eq_div_pow]
    have hdvd : (2 : ℕ) ^ (8 * j) ∣ p n * 2 ^ (8 * n) :=
      Dvd.dvd.mul_left (Nat.pow_dvd_pow 2 (by omega)) _
    rw [Nat.add_div_of_dvd_left hdvd]
    rcases Nat.lt_or_ge j n with hjn | hjn
    · have hdd : p n * 2 ^ (8 * n) / 2 ^ (8 * j) = p n * 2 ^ (8 * n - 8 * j) := by
        rw [Nat.mul_div_assoc _ (Nat.pow_dvd_pow 2 (by omega)),
          Nat.pow_div (by omega) (by norm_num)]
      have h256 : (256 : ℕ) ∣ 2 ^ (8 * n - 8 * j) := by
        have h8 : (2 : ℕ) ^ 8 ∣ 2 ^ (8 * n - 8 * j) := Nat.pow_dvd_pow 2 (by omega)
        norm_num at h8
        exact h8
      obtain ⟨c, hc⟩ := h256
      rw [hdd, hc, show p n * (256 * c) = p n * c * 256 from by ring,
        Nat.add_mul_mod_self_right]
      have hih := ih p j (fun m hm => h m (by omega)) hjn
      rw [Nat.shiftRight_eq_div_pow] at hih
      exact hih
    · have hjn' : j = n := by omega
      subst hjn'
      have hlt := packPos_lt j p (fun m hm => h m (by omega))
      rw [Nat.div_eq_of_lt hlt, Nat.mul_div_cancel _ (Nat.pos_pow_of_pos _ (by norm_num)),
        Nat.zero_add]
      exact Nat.mod_eq_of_lt (h j (by omega))

theorem decode_pack (n : ℕ) (p : ℕ → ℕ) (h : ∀ m, m < n → p m < 256) :
    decodeSol n (packPos n p) = solOf n p := by
  unfold decodeSol solOf
  refine List.map_congr_left ?_
  intro m hm
  exact packPos_extract n p m h (List.mem_range.mp hm)

theorem natBeq_true {a b : ℕ} (h : a = b) : a.beq b = true := by
  rw [Nat.beq_eq]
  exact h

theorem natBeq_false {a b : ℕ} (h : a ≠ b) : a.beq b = false := by
  cases hb : a.beq b
  · rfl
  · exact absurd (show a = b by rw [← Nat.beq_eq]; exact hb) h

theorem natBlt_true {a b : ℕ} (h : a < b) : a.blt b = true := by
  rw [Nat.blt_eq]
  exact h

theorem natBlt_false {a b : ℕ} (h : ¬a < b) : a.blt b = false := by
  cases hb : a.blt b
  · rfl
  · exact absurd (show a < b by rw [← Nat.blt_eq]; exact hb) h

theorem natBle_true {a b : ℕ} (h : a ≤ b) : a.ble b = true := by
  rw [Nat.ble_eq]
  exact h

theorem cond_true_eq {α : Type} (x y : α) : cond true x y = x := rfl

theorem cond_false_eq {α : Type} (x y : α) : cond false x y = y := rfl

theorem msb_shiftLeft_one (n : ℕ) (hn : 1 ≤ n) : msb n <<< 1 = 2 ^ n := by
  unfold msb
  rw [Nat.shiftLeft_eq, Nat.shiftLeft_eq, one_mul, ← pow_add]
  congr 1
  omega

theorem closeChild_eq (n : ℕ) (C : Ctx) (d : Bool) :
    closeChild n C d =
      if (if d then C.o1 else C.o0) ≠ 0 then
        if 0 ≤ ((C.k : ℤ) - 2 * n - 2 + ffsll (if d then C.o1 else C.o0)) ∧
            ((C.k : ℤ) - 2 * n - 2 + ffsll (if d then C.o1 else C.o0)) < n ∧
            (C.avail >>> ((C.k : ℤ) - 2 * n - 2 +
              ffsll (if d then C.o1 else C.o0)).toNat) % 2 = 1 ∧
            (((C.k : ℤ) - 2 * n - 2 + ffsll (if d then C.o1 else C.o0)) ≠ 0 ∨
              C.k ≤ n) then
          [⟨C.k, (C.k : ℤ) - 2 * n - 2 + ffsll (if d then C.o1 else C.o0), d, C.no⟩]
        else []
      else [] := rfl

theorem pos_lt_of_inv {n : ℕ} {c : Ctx} {s0 s1 : List ℕ} {arcs : List Arc}
    (inv : TraceInv n c s0 s1 arcs) (hn : 1 ≤ n) :
    ∀ m, m < n → c.pos m < 2 * n := by
  intro m hm
  by_cases hmem : m ∈ arcs.map Arc.m
  · rw [List.mem_map] at hmem
    obtain ⟨x, hx, hxm⟩ := hmem
    rw [← hxm, inv.posEq x hx]
    have h1 := (inv.geom x hx).2
    have h2 := inv.kle
    omega
  · rw [inv.posZero m hm hmem]
    omega

theorem dfsRec_one_succ (n fuel : ℕ) (f : Frame) (c : Ctx) :
    dfsRec n 1 0 (fuel + 1) f c =
      if (applyFrame n f c).k = 2 * n then [solOf n (applyFrame n f c).pos]
      else ((childFrames n (applyFrame n f c)).map
        (fun g => dfsRec n 1 0 fuel g (applyFrame n f c))).flatten := by
  rw [dfsRec_succ]
  by_cases hterm : (applyFrame n f c).k = 2 * n
  · rw [if_pos hterm, if_pos hterm]
  · rw [if_neg hterm, if_neg hterm,
      if_neg (show ¬abandons n 1 0 (applyFrame n f c) from fun hh => by
        have := hh.1
        omega)]

theorem applyFrame_openF (n : ℕ) (C : Ctx) (k no : ℕ) :
    applyFrame n ⟨k, -1, false, no⟩ C =
      ⟨k + 1, C.avail, C.o0 ||| nn1 n >>> k, C.o1, C.pos, no + 1⟩ := by
  rw [applyFrame_openCase n ⟨k, -1, false, no⟩ C (by norm_num)]
  rfl

theorem applyFrame_openT (n : ℕ) (C : Ctx) (k no : ℕ) :
    applyFrame n ⟨k, -1, true, no⟩ C =
      ⟨k + 1, C.avail, C.o0, C.o1 ||| nn1 n >>> k, C.pos, no + 1⟩ := by
  rw [applyFrame_openCase n ⟨k, -1, true, no⟩ C (by norm_num)]
  rfl

theorem applyFrame_closeD (n : ℕ) (C : Ctx) (k no : ℕ) (m : ℤ) (hm : 0 ≤ m) (d : Bool) :
    applyFrame n ⟨k, m, d, no⟩ C =
      ⟨k + 1, C.avail ^^^ (1 <<< m.toNat),
        if d then C.o0 else C.o0 &&& (C.o0 - 1),
        if d then C.o1 &&& (C.o1 - 1) else C.o1,
        fun j => if j = m.toNat then k else C.pos j, no⟩ := by
  rw [applyFrame_closeCase n ⟨k, m, d, no⟩ C hm]

/-- The fast power-arithmetic evaluator computes exactly the single-worker
recursive traversal, with the `pos` array packed into 8-bit fields of one
natural number. -/
theorem dfsE_bridge (n : ℕ) (hn : 1 ≤ n) (hn32 : n ≤ 32) :
    ∀ (fuel : ℕ) (f : Frame) (c : Ctx), Reach n (applyFrame n f c) →
      dfsRec n 1 0 fuel f c =
        (dfsE n (2 * n) (msb n <<< 1) (nn1 n) fuel (applyFrame n f c).k
          (applyFrame n f c).avail (applyFrame n f c).o0 (applyFrame n f c).o1
          (packPos n (applyFrame n f c).pos) (applyFrame n f c).no).map
          (decodeSol n) := by
  intro fuel
  induction fuel with
  | zero => intro f c _; rfl
  | succ fuel ih =>
    intro f c hreach
    obtain ⟨C, hC⟩ : ∃ C, applyFrame n f c = C := ⟨_, rfl⟩
    rw [dfsRec_one_succ, hC]
    rw [hC] at hreach
    have hre : Reach n C := hreach
    obtain ⟨s0, s1, arcs, ht⟩ := hreach
    have inv := trace_inv hn hn32 ht
    have hposb : ∀ m, m < n → C.pos m < 256 := by
      intro m hm
      have := pos_lt_of_inv inv hn m hm
      omega
    rw [dfsE_succ]
    by_cases hterm : C.k = 2 * n
    · rw [if_pos hterm, natBeq_true hterm, cond_true_eq]
      show [solOf n C.pos] = [packPos n C.pos].map (decodeSol n)
      rw [show [packPos n C.pos].map (decodeSol n) =
        [decodeSol n (packPos n C.pos)] from rfl, decode_pack n C.pos hposb]
    · rw [if_neg hterm, natBeq_false hterm, cond_false_eq]
      have hpos0 : ∀ M, M < n → C.avail.testBit M = true → C.pos M = 0 := by
        intro M hM htb
        exact inv.posZero M hM ((inv.availBit M).mp htb).2
      have hne2n : C.k ≠ 2 * n := hterm
      have hside : ∀ (d : Bool) (od o0' o1' : ℕ) (sd : List ℕ),
          OpenStackInv C.k sd → od = encOpen n sd →
          (if d then C.o1 else C.o0) = od →
          o0' = (if d then C.o0 else C.o0 &&& (C.o0 - 1)) →
          o1' = (if d then C.o1 &&& (C.o1 - 1) else C.o1) →
          ((closeChild n C d).map (fun g => dfsRec n 1 0 fuel g C)).flatten =
            (cond ((((od ^^^ (od &&& (od - 1))) <<< C.k) >>> (2 * n + 1)).beq 0) []
              (cond ((((od ^^^ (od &&& (od - 1))) <<< C.k) >>> (2 * n + 1)).blt
                    (msb n <<< 1) &&
                  !(C.avail &&&
                    (((od ^^^ (od &&& (od - 1))) <<< C.k) >>> (2 * n + 1))).beq 0 &&
                  (!(((od ^^^ (od &&& (od - 1))) <<< C.k) >>> (2 * n + 1)).beq 1 ||
                    C.k.ble n))
                (dfsE n (2 * n) (msb n <<< 1) (nn1 n) fuel (C.k + 1)
                  (C.avail ^^^
                    (((od ^^^ (od &&& (od - 1))) <<< C.k) >>> (2 * n + 1)))
                  o0' o1'
                  (packPos n C.pos +
                    C.k * (((od ^^^ (od &&& (od - 1))) <<< C.k) >>> (2 * n + 1)) ^ 8)
                  C.no)
                [])).map (decodeSol n) := by
        intro d od o0' o1' sd hst hodenc hd ho0' ho1'
        cases sd with
        | nil =>
          have hod0 : od = 0 := by rw [hodenc]; rfl
          have hcc : closeChild n C d = [] := by
            rw [closeChild_eq, hd, hod0]
            simp
          rw [hcc, hod0]
          simp only [List.map_nil, List.flatten_nil, Nat.zero_sub, Nat.zero_and,
            Nat.zero_xor, Nat.zero_shiftLeft, Nat.zero_shiftRight]
          rfl
        | cons s l =>
          have hsk : s < C.k := hst.2 s (List.mem_cons_self s l)
          have hl : ∀ u ∈ l, u < s := fun u hu => (List.pairwise_cons.mp hst.1).1 u hu
          have hbd : ∀ u ∈ s :: l, u < 2 * n := fun u hu =>
            lt_of_lt_of_le (hst.2 u hu) inv.kle
          have hs2n : s < 2 * n := hbd s (List.mem_cons_self s l)
          obtain ⟨z, hz, _⟩ := encOpen_struct n s l hl hbd
          have hodz : od = 2 ^ (2 * n - 1 - s) * (2 * z + 1) := by rw [hodenc, hz]
          have hxor : od ^^^ (od &&& (od - 1)) = 2 ^ (2 * n - 1 - s) := by
            rw [hodz]
            exact xor_land_pred_odd_mul (2 * n - 1 - s) z
          have hffs : ffsll od = 2 * n - s := by
            rw [hodenc]
            exact ffsll_encOpen n s l hl hbd hn32
          have hodne : od ≠ 0 := by
            rw [hodenc]
            exact encOpen_ne_zero n s l hs2n
          have hBe : (((od ^^^ (od &&& (od - 1))) <<< C.k) >>> (2 * n + 1)) =
              if s + 2 ≤ C.k then 2 ^ (C.k - s - 2) else 0 := by
            rw [hxor, pow_shiftLeft, pow_shiftRight]
            by_cases hks : s + 2 ≤ C.k
            · rw [if_pos (show 2 * n + 1 ≤ 2 * n - 1 - s + C.k from by omega),
                if_pos hks]
              congr 1
              omega
            · rw [if_neg (show ¬(2 * n + 1 ≤ 2 * n - 1 - s + C.k) from by omega),
                if_neg hks]
          by_cases hks : s + 2 ≤ C.k
          · obtain ⟨M, hM⟩ : ∃ M, M = C.k - s - 2 := ⟨_, rfl⟩
            have hBM : (((od ^^^ (od &&& (od - 1))) <<< C.k) >>> (2 * n + 1)) =
                2 ^ M := by
              rw [hBe, if_pos hks, hM]
            rw [hBM]
            have hm_int : (C.k : ℤ) - 2 * n - 2 + ffsll od = (M : ℤ) := by
              rw [hffs]
              omega
            have hcc : closeChild n C d =
                if 0 ≤ (M : ℤ) ∧ (M : ℤ) < (n : ℤ) ∧
                    (C.avail >>> ((M : ℤ)).toNat) % 2 = 1 ∧
                    ((M : ℤ) ≠ 0 ∨ C.k ≤ n) then
                  [⟨C.k, (M : ℤ), d, C.no⟩] else [] := by
              rw [closeChild_eq, hd, if_pos hodne, hm_int]
            have hccP : closeChild n C d =
                if M < n ∧ (C.avail >>> M) % 2 = 1 ∧ (M ≠ 0 ∨ C.k ≤ n) then
                  [⟨C.k, (M : ℤ), d, C.no⟩] else [] := by
              rw [hcc]
              refine if_congr ?_ rfl rfl
              rw [Int.toNat_natCast]
              omega
            have hbeqB : ((2 : ℕ) ^ M).beq 0 = false :=
              natBeq_false (Nat.pos_pow_of_pos M (by norm_num)).ne'
            rw [hbeqB, cond_false_eq]
            by_cases hP : M < n ∧ (C.avail >>> M) % 2 = 1 ∧ (M ≠ 0 ∨ C.k ≤ n)
            · obtain ⟨hPn, hPav, hPm⟩ := hP
              have htbM : C.avail.testBit M = true :=
                (shiftRight_mod_two_eq_one C.avail M).mp hPav
              have hblt : ((2 : ℕ) ^ M).blt (msb n <<< 1) = true := by
                rw [msb_shiftLeft_one n hn]
                exact natBlt_true (Nat.pow_lt_pow_right (by norm_num) hPn)
              have hand : (C.avail &&& 2 ^ M).beq 0 = false := by
                rw [Nat.and_two_pow, htbM]
                refine natBeq_false ?_
                show Bool.toNat true * 2 ^ M ≠ 0
                rw [show Bool.toNat true = 1 from rfl, one_mul]
                exact (Nat.pos_pow_of_pos M (by norm_num)).ne'
              have hor : (!((2 : ℕ) ^ M).beq 1 || C.k.ble n) = true := by
                rcases hPm with hm0 | hkn
                · rw [natBeq_false (fun he => hm0 ((two_pow_eq_one_iff M).mp he))]
                  rfl
                · rw [natBle_true hkn, Bool.or_true]
              rw [hblt, hand, hor,
                show ((true && !false && true) : Bool) = true from rfl, cond_true_eq]
              have hFcc : (⟨C.k, (M : ℤ), d, C.no⟩ : Frame) ∈ closeChild n C d := by
                rw [hccP, if_pos ⟨hPn, hPav, hPm⟩]
                exact List.mem_cons_self _ _
              have hFmem : (⟨C.k, (M : ℤ), d, C.no⟩ : Frame) ∈ childFrames n C := by
                unfold childFrames
                cases d
                · exact List.mem_append_right _ hFcc
                · exact List.mem_append_left _ (List.mem_append_right _ hFcc)
              have hihF := ih ⟨C.k, (M : ℤ), d, C.no⟩ C (reach_child hre hne2n hFmem)
              rw [applyFrame_closeD n C C.k C.no (M : ℤ) (Int.natCast_nonneg M) d]
                at hihF
              dsimp only at hihF
              rw [Int.toNat_natCast, Nat.one_shiftLeft,
                packPos_update n C.pos M C.k hPn (hpos0 M hPn htbM),
                ← ho0', ← ho1'] at hihF
              rw [hccP, if_pos ⟨hPn, hPav, hPm⟩]
              simp only [List.map_cons, List.map_nil, List.flatten_cons,
                List.flatten_nil, List.append_nil]
              rw [show ((2 : ℕ) ^ M) ^ 8 = 2 ^ (8 * M) from by
                rw [← pow_mul, Nat.mul_comm]]
              exact hihF
            · have hbF : (((2 : ℕ) ^ M).blt (msb n <<< 1) &&
                  !(C.avail &&& 2 ^ M).beq 0 &&
                  (!((2 : ℕ) ^ M).beq 1 || C.k.ble n)) = false := by
                cases hb : (((2 : ℕ) ^ M).blt (msb n <<< 1) &&
                    !(C.avail &&& 2 ^ M).beq 0 &&
                    (!((2 : ℕ) ^ M).beq 1 || C.k.ble n))
                · rfl
                · exfalso
                  apply hP
                  rw [Bool.and_eq_true, Bool.and_eq_true] at hb
                  obtain ⟨⟨hb1, hb2⟩, hb3⟩ := hb
                  refine ⟨?_, ?_, ?_⟩
                  · rw [msb_shiftLeft_one n hn, Nat.blt_eq] at hb1
                    exact (Nat.pow_lt_pow_iff_right (by norm_num)).mp hb1
                  · rw [Bool.not_eq_true', Nat.and_two_pow] at hb2
                    cases htb : C.avail.testBit M
                    · rw [htb, show Bool.toNat false = 0 from rfl,
                        Nat.zero_mul] at hb2
                      rw [natBeq_true rfl] at hb2
                      exact Bool.noConfusion hb2
                    · exact (shiftRight_mod_two_eq_one C.avail M).mpr htb
                  · rw [Bool.or_eq_true] at hb3
                    rcases hb3 with hb3 | hb3
                    · left
                      rw [Bool.not_eq_true'] at hb3
                      intro he
                      rw [he, pow_zero, natBeq_true rfl] at hb3
                      exact Bool.noConfusion hb3
                    · right
                      rw [Nat.ble_eq] at hb3
                      exact hb3
              rw [hbF, cond_false_eq, hccP, if_neg hP]
              rfl
          · have hB0 : (((od ^^^ (od &&& (od - 1))) <<< C.k) >>> (2 * n + 1)) = 0 := by
              rw [hBe, if_neg hks]
            have hcc0 : closeChild n C d = [] := by
              rw [closeChild_eq, hd, if_pos hodne]
              rw [if_neg]
              intro hcond
              have h0 := hcond.1
              rw [hffs] at h0
              omega
            rw [hcc0, hB0]
            rfl
      have hopen : ((openChildren n C).map (fun g => dfsRec n 1 0 fuel g C)).flatten =
          (cond ((C.no).blt n)
            (dfsE n (2 * n) (msb n <<< 1) (nn1 n) fuel (C.k + 1) C.avail
              (C.o0 ||| nn1 n >>> C.k) C.o1 (packPos n C.pos) (C.no + 1) ++
             dfsE n (2 * n) (msb n <<< 1) (nn1 n) fuel (C.k + 1) C.avail
              C.o0 (C.o1 ||| nn1 n >>> C.k) (packPos n C.pos) (C.no + 1)) []).map
            (decodeSol n) := by
        by_cases hno : C.no < n
        · have hoc : openChildren n C =
              [⟨C.k, -1, false, C.no⟩, ⟨C.k, -1, true, C.no⟩] := by
            unfold openChildren
            rw [if_pos hno]
          have hFmem : (⟨C.k, -1, false, C.no⟩ : Frame) ∈ childFrames n C := by
            unfold childFrames
            exact List.mem_append_left _ (List.mem_append_left _ (by
              rw [hoc]
              exact List.mem_cons_self _ _))
          have hTmem : (⟨C.k, -1, true, C.no⟩ : Frame) ∈ childFrames n C := by
            unfold childFrames
            exact List.mem_append_left _ (List.mem_append_left _ (by
              rw [hoc]
              exact List.mem_cons_of_mem _ (List.mem_cons_self _ _)))
          have hihF := ih ⟨C.k, -1, false, C.no⟩ C (reach_child hre hne2n hFmem)
          have hihT := ih ⟨C.k, -1, true, C.no⟩ C (reach_child hre hne2n hTmem)
          rw [applyFrame_openF n C C.k C.no] at hihF
          dsimp only at hihF
          rw [applyFrame_openT n C C.k C.no] at hihT
          dsimp only at hihT
          rw [hoc, natBlt_true hno, cond_true_eq]
          simp only [List.map_cons, List.map_nil, List.flatten_cons,
            List.flatten_nil, List.append_nil, List.map_append]
          rw [hihF, hihT]
        · rw [show openChildren n C = [] from by
            unfold openChildren
            rw [if_neg hno], natBlt_false hno, cond_false_eq]
          rfl
      have hsplit : ((childFrames n C).map (fun g => dfsRec n 1 0 fuel g C)).flatten =
          ((openChildren n C).map (fun g => dfsRec n 1 0 fuel g C)).flatten ++
          ((closeChild n C true).map (fun g => dfsRec n 1 0 fuel g C)).flatten ++
          ((closeChild n C false).map (fun g => dfsRec n 1 0 fuel g C)).flatten := by
        unfold childFrames
        rw [List.map_append, List.map_append, List.flatten_append, List.flatten_append]
      rw [hsplit, List.map_append, List.map_append]
      rw [hopen,
        hside true C.o1 C.o0 (C.o1 &&& (C.o1 - 1)) s1 inv.st1 inv.enc1 rfl rfl rfl,
        hside false C.o0 (C.o0 &&& (C.o0 - 1)) C.o1 s0 inv.st0 inv.enc0 rfl rfl rfl]

/-- The fast evaluator's results, decoded, are the single worker's results. -/
theorem fastResults_eq (n : ℕ) (hn : 1 ≤ n) (hn32 : n ≤ 32) :
    fastResults n = dfsRec n 1 0 (2 * n) rootFrame (initCtx n) := by
  have h := dfsE_bridge n hn hn32 (2 * n) rootFrame (initCtx n) (reach_root n)
  have h1 : applyFrame n rootFrame (initCtx n) =
      ⟨1, msb n ||| (msb n - 1), nn1 n, 0, fun _ => 0, 1⟩ := by
    rw [applyFrame_openCase n rootFrame (initCtx n) (by norm_num [rootFrame])]
    simp [rootFrame, initCtx]
  rw [h1] at h
  unfold fastResults
  rw [h]
  dsimp only
  rw [packPos_zero_fun]

/-! ### Concrete evaluations of the traversal -/

set_option maxHeartbeats 1000000 in
theorem fastResults_three : fastResults 3 = [[3, 5, 4]] := by decide

set_option maxHeartbeats 1000000 in
theorem fastResults_four : fastResults 4 = [] := by decide

set_option maxHeartbeats 20000000 in
theorem fastResults_seven : fastResults 7 = [] := by decide

set_option maxHeartbeats 80000000 in
theorem fastResults_eight : fastResults 8 =
    [[4, 14, 7, 15, 12, 8, 13, 9], [3, 14, 10, 7, 15, 12, 8, 13],
     [2, 13, 9, 6, 14, 11, 15, 12], [2, 12, 5, 13, 10, 14, 11, 15]] := by decide

theorem ledgerW_one_eq (n : ℕ) (hn : 1 ≤ n) (hn32 : n ≤ 32) :
    ledgerW n 1 = fastResults n := by
  unfold ledgerW
  have hr1 : List.range 1 = [0] := rfl
  rw [hr1]
  simp only [List.map_cons, List.map_nil, List.flatten_cons, List.flatten_nil,
    List.append_nil]
  rw [dfs_eq_dfsRec n 1 0 hn hn32, fastResults_eq n hn hn32]

theorem solve_eq_unique_fast (n : ℤ)
    (h : ¬(n ≤ 0 ∨ kMaxN < n ∨ n.tmod 4 = 1 ∨ n.tmod 4 = 2))
    (hn32 : n.toNat ≤ 32) :
    solve n = unique_count (fastResults n.toNat) := by
  rw [show solve n = solveWith kMaxThreads n from rfl,
    solveWith_eq_one kMaxThreads (by norm_num [kMaxThreads]) n]
  show solveGen (fun m => ledgerW m 1) n = _
  unfold solveGen
  rw [if_neg h]
  have hn : 1 ≤ n.toNat := by
    push_neg at h
    have := h.1
    omega
  show unique_count (ledgerW n.toNat 1) = _
  rw [ledgerW_one_eq n.toNat hn hn32]

theorem solve_fixture_3478 : solve 3 = 1 ∧ solve 4 = 0 ∧ solve 7 = 0 ∧ solve 8 = 4 := by
  refine ⟨?_, ?_, ?_, ?_⟩
  · rw [solve_eq_unique_fast 3 (by decide) (by decide)]
    show unique_count (fastResults 3) = 1
    rw [fastResults_three]
    decide
  · rw [solve_eq_unique_fast 4 (by decide) (by decide)]
    show unique_count (fastResults 4) = 0
    rw [fastResults_four]
    decide
  · rw [solve_eq_unique_fast 7 (by decide) (by decide)]
    show unique_count (fastResults 7) = 0
    rw [fastResults_seven]
    decide
  · rw [solve_eq_unique_fast 8 (by decide) (by decide)]
    show unique_count (fastResults 8) = 4
    rw [fastResults_eight]
    decide

theorem testBit_xor_one_shiftLeft_self (x i : ℕ) :
    (x ^^^ 1 <<< i).testBit i = !(x.testBit i) := by
  rw [Nat.one_shiftLeft, Nat.testBit_xor, Nat.testBit_two_pow_self, Bool.xor_true]

/-- The availability word has exactly `n - assigned` set bits. -/
theorem avail_popcount {n : ℕ} {c : Ctx} {s0 s1 : List ℕ} {arcs : List Arc}
    (inv : TraceInv n c s0 s1 arcs) :
    ((Finset.range n).filter (fun m => c.avail.testBit m = true)).card =
      n - arcs.length := by
  have hcongr : (Finset.range n).filter (fun m => c.avail.testBit m = true) =
      (Finset.range n).filter (fun m => m ∉ arcs.map Arc.m) := by
    refine Finset.filter_congr ?_
    intro m hm
    rw [inv.availBit m]
    simp [Finset.mem_range.mp hm]
  have hsdiff : (Finset.range n).filter (fun m => m ∉ arcs.map Arc.m) =
      Finset.range n \ (arcs.map Arc.m).toFinset := by
    ext m
    simp [Finset.mem_sdiff, Finset.mem_filter, List.mem_toFinset]
  rw [hcongr, hsdiff, Finset.card_sdiff]
  · rw [Finset.card_range, List.toFinset_card_of_nodup inv.valsNodup,
      List.length_map]
  · intro v hv
    rw [List.mem_toFinset, List.mem_map] at hv
    obtain ⟨x, hx, rfl⟩ := hv
    exact Finset.mem_range.mpr (inv.valsLt x hx)

/-- The concrete sorted ledger of the full 511-worker run at n = 8: the
permutation-level partition equivalence reduces it to the single worker's
ledger, and sorted lists that are permutations of each other are equal. -/
theorem sorted_ledger_eight :
    List.insertionSort lexR (ledgerW 8 kMaxThreads) =
      [[2, 12, 5, 13, 10, 14, 11, 15], [2, 13, 9, 6, 14, 11, 15, 12],
       [3, 14, 10, 7, 15, 12, 8, 13], [4, 14, 7, 15, 12, 8, 13, 9]] := by
  have hperm : (ledgerW 8 kMaxThreads).Perm (fastResults 8) := by
    have h1 := ledgerW_perm 8 kMaxThreads (by norm_num) (by norm_num)
      (by norm_num [kMaxThreads]) (by decide) (by decide)
    rw [ledgerW_one_eq 8 (by norm_num) (by norm_num)] at h1
    exact h1
  have h2 : (List.insertionSort lexR (ledgerW 8 kMaxThreads)).Perm
      (List.insertionSort lexR (fastResults 8)) :=
    ((List.perm_insertionSort lexR _).trans hperm).trans
      (List.perm_insertionSort lexR _).symm
  have heq := List.eq_of_perm_of_sorted h2
    (List.sorted_insertionSort lexR _) (List.sorted_insertionSort lexR _)
  rw [heq, fastResults_eight]
  decide

/-! ### The claims -/

/-- C2: every Solution recorded in the ledger is valid: each value m in 1..n
(internal index m-1) occupies exactly two of the 2n slots at the Langford
spacing `closing = opening + value + 1`, the slots of the arcs tile the 2n
slots, and each connection side's arc family, taken independently, is
non-crossing. -/
theorem ledger_solutions_valid (n W : ℕ) (hn : 1 ≤ n) (hn32 : n ≤ 32)
    (sol : List ℕ) (hsol : sol ∈ ledgerW n W) : ValidSolution n sol := by
  unfold ledgerW at hsol
  rw [List.mem_flatten] at hsol
  obtain ⟨l, hl, hs⟩ := hsol
  rw [List.mem_map] at hl
  obtain ⟨t, _, rfl⟩ := hl
  rw [dfs_eq_dfsRec n W t hn hn32] at hs
  exact dfsRec_valid hn hn32 hs

/-- Witness for the ledger-validity theorem at the concrete input n = 3. -/
theorem ledger_solutions_valid_witness : ValidSolution 3 [3, 5, 4] :=
  ledger_solutions_valid 3 1 (by norm_num) (by norm_num) [3, 5, 4] (by
    rw [ledgerW_one_eq 3 (by norm_num) (by norm_num), fastResults_three]
    exact List.mem_cons_self _ _)

/-- C3: the hash partition is complete and non-overlapping: every state has
exactly one owning thread id below W, the union of the W workers' ledgers
equals the single unpartitioned worker's ledger as a set, and the distinct
count is the same for worker count 1 and any worker count W ≥ 1. -/
theorem partition_complete (n W : ℕ) (hn : 1 ≤ n) (hn32 : n ≤ 32) (hW : 1 ≤ W) :
    (∀ c : Ctx, ∃! t, t < W ∧ stateHash c % W = t) ∧
    (ledgerW n W).toFinset = (ledgerW n 1).toFinset ∧
    solveWith W n = solveWith 1 n := by
  refine ⟨?_, ledgerW_toFinset n W hn hn32 hW, solveWith_eq_one W hW n⟩
  intro c
  exact ⟨stateHash c % W, ⟨Nat.mod_lt _ (by omega), rfl⟩, fun y hy => hy.2.symm⟩

/-- Witness for partition completeness at the concrete input n = 3, W = 2. -/
theorem partition_complete_witness :
    (∀ c : Ctx, ∃! t, t < 2 ∧ stateHash c % 2 = t) ∧
    (ledgerW 3 2).toFinset = (ledgerW 3 1).toFinset ∧
    solveWith 2 3 = solveWith 1 3 :=
  partition_complete 3 2 (by norm_num) (by norm_num) (by norm_num)

/-- C4 (corrected): ledger finalization sorts the entries by the recorded
Positions encoding (closing slot of each value in value order, compared
lexicographically) -- not by the spec's value-at-each-closing-slot encoding --
and the count returned equals the number of maximal runs of equal entries of
that sorted ledger, equivalently the length of its duplicate-free merge. -/
theorem ledger_finalization (n : ℤ)
    (h : ¬(n ≤ 0 ∨ kMaxN < n ∨ n.tmod 4 = 1 ∨ n.tmod 4 = 2)) :
    (List.insertionSort lexR (ledgerW n.toNat kMaxThreads)).Sorted lexR ∧
    solve n = runsCount (List.insertionSort lexR (ledgerW n.toNat kMaxThreads)) ∧
    solve n = (List.insertionSort lexR (ledgerW n.toNat kMaxThreads)).dedup.length ∧
    (List.insertionSort lexR (ledgerW n.toNat kMaxThreads)).dedup.Nodup := by
  refine ⟨List.sorted_insertionSort lexR _, ?_, ?_, List.nodup_dedup _⟩
  · show solveGen (fun m => ledgerW m kMaxThreads) n = _
    unfold solveGen
    rw [if_neg h]
    exact unique_count_eq_runsCount _
  · show solveGen (fun m => ledgerW m kMaxThreads) n = _
    unfold solveGen
    rw [if_neg h]
    rw [unique_count_eq_runsCount,
      runsCount_sorted_eq_dedup (List.sorted_insertionSort lexR _)]

/-- Witness for ledger finalization at the concrete input n = 8. -/
theorem ledger_finalization_witness :
    (List.insertionSort lexR (ledgerW (8 : ℤ).toNat kMaxThreads)).Sorted lexR ∧
    solve 8 = runsCount (List.insertionSort lexR
      (ledgerW (8 : ℤ).toNat kMaxThreads)) ∧
    solve 8 = (List.insertionSort lexR
      (ledgerW (8 : ℤ).toNat kMaxThreads)).dedup.length ∧
    (List.insertionSort lexR (ledgerW (8 : ℤ).toNat kMaxThreads)).dedup.Nodup :=
  ledger_finalization 8 (by decide)

/-- Counterexample to C4 as stated: the actual sorted ledger of the full run
at n = 8 is not sorted by the spec's canonical encoding (the value at each
closing slot in slot order). -/
theorem ledger_not_spec_sorted :
    ¬ List.Pairwise specLeR (List.insertionSort lexR (ledgerW 8 kMaxThreads)) := by
  rw [sorted_ledger_eight]
  decide

/-- C5: degenerate inputs (n ≤ 0, n above kMaxN, or n ≡ 1, 2 mod 4) yield the
defined result 0 before any traversal: `solveGen` returns 0 for any search
function whatsoever. -/
theorem degenerate_inputs (n : ℤ)
    (h : n ≤ 0 ∨ kMaxN < n ∨ n.tmod 4 = 1 ∨ n.tmod 4 = 2) :
    solve n = 0 ∧ ∀ search : ℕ → List (List ℕ), solveGen search n = 0 := by
  constructor
  · show solveGen (fun m => ledgerW m kMaxThreads) n = 0
    unfold solveGen
    rw [if_pos h]
  · intro search
    unfold solveGen
    rw [if_pos h]

/-- Witness for degenerate inputs at the concrete input n = 5. -/
theorem degenerate_inputs_witness :
    solve 5 = 0 ∧ ∀ search : ℕ → List (List ℕ), solveGen search 5 = 0 :=
  degenerate_inputs 5 (by decide)

/-- C6: the bit-trick arithmetic recovering a pair's implied value is exact:
whenever a close frame is generated at slot k for a side whose most recent
pending opening is at slot s, the computed index m equals k - s - 2 (as
integers), so the opening slot equals the closing slot minus the value (m+1)
minus 1. -/
theorem close_value_exact (n : ℕ) (hn : 1 ≤ n) (hn32 : n ≤ 32) (C : Ctx)
    (s0 s1 : List ℕ) (arcs : List Arc) (ht : Trace n C s0 s1 arcs) (d : Bool)
    (F : Frame) (hF : F ∈ closeChild n C d) :
    ∃ s l, (if d then s1 else s0) = s :: l ∧
      F.m = (C.k : ℤ) - (s : ℤ) - 2 ∧ s + (F.m.toNat + 1) + 1 = C.k := by
  have inv := trace_inv hn hn32 ht
  obtain ⟨hodne, hFeq, hm0, hmn, hbit, hmir⟩ := mem_closeChild hF
  have henc : (if d then C.o1 else C.o0) = encOpen n (if d then s1 else s0) := by
    cases d
    · exact inv.enc0
    · exact inv.enc1
  have hstI : OpenStackInv C.k (if d then s1 else s0) := by
    cases d
    · exact inv.st0
    · exact inv.st1
  cases hsd : (if d then s1 else s0) with
  | nil =>
    exfalso
    apply hodne
    rw [henc, hsd]
    rfl
  | cons s l =>
    rw [hsd] at hstI
    have hsk : s < C.k := hstI.2 s (List.mem_cons_self s l)
    have hl : ∀ u ∈ l, u < s := fun u hu => (List.pairwise_cons.mp hstI.1).1 u hu
    have hbd : ∀ u ∈ s :: l, u < 2 * n := fun u hu =>
      lt_of_lt_of_le (hstI.2 u hu) inv.kle
    have hffs : ffsll (if d then C.o1 else C.o0) = 2 * n - s := by
      rw [henc, hsd]
      exact ffsll_encOpen n s l hl hbd hn32
    have hFm : F.m = (C.k : ℤ) - 2 * n - 2 + ffsll (if d then C.o1 else C.o0) := by
      rw [hFeq]
    rw [hffs] at hFm
    have hs2n : s < 2 * n := hbd s (List.mem_cons_self s l)
    refine ⟨s, l, rfl, ?_, ?_⟩
    · rw [hFm]
      omega
    · have hge : (0 : ℤ) ≤ F.m := hm0
      omega

/-- Witness for the value arithmetic at a concrete reachable state of n = 3:
open slot 0 below, open slot 1 above, then close slot 0 at k = 2 with value
index m = 0 (the value 1 spans slots 0 and 2). -/
theorem close_value_exact_witness :
    ∃ s l, (if false then [(1 : ℕ)] else [(0 : ℕ)]) = s :: l ∧
      (⟨2, 0, false, 2⟩ : Frame).m =
        ((applyFrame 3 ⟨1, -1, true, 1⟩ (applyFrame 3 rootFrame (initCtx 3))).k : ℤ) -
          (s : ℤ) - 2 ∧
      s + ((⟨2, 0, false, 2⟩ : Frame).m.toNat + 1) + 1 =
        (applyFrame 3 ⟨1, -1, true, 1⟩ (applyFrame 3 rootFrame (initCtx 3))).k :=
  close_value_exact 3 (by norm_num) (by norm_num) _ [0] [1] []
    (Trace.openR ⟨1, -1, true, 1⟩ Trace.root (by decide) (by decide) rfl)
    false ⟨2, 0, false, 2⟩ (by decide)

/-- C7: mirror-symmetry pruning as implemented: the machine's very first frame
is the fixed "open slot 0, below" decision; a close frame with implied value
index 0 is only generated while k ≤ n; and every recorded solution has the
pair occupying slot 0 connected from the below side. -/
theorem mirror_pruning (n : ℕ) (hn : 1 ≤ n) (hn32 : n ≤ 32) :
    (initSt n).stack = [(⟨0, -1, false, 0⟩ : Frame)] ∧
    (∀ (C : Ctx) (d : Bool) (F : Frame), F ∈ closeChild n C d → F.m = 0 →
      C.k ≤ n) ∧
    ∀ (W : ℕ) (sol : List ℕ), sol ∈ ledgerW n W →
      ∃ arcs : List Arc,
        (∀ x ∈ arcs, x.b = x.a + x.m + 2 ∧ sol.getD x.m 0 = x.b) ∧
        ∃ x ∈ arcs, x.a = 0 ∧ x.d = false := by
  refine ⟨rfl, ?_, ?_⟩
  · intro C d F hF hm
    rcases (mem_closeChild hF).2.2.2.2.2 with h | h
    · exact absurd hm h
    · exact h
  · intro W sol hsol
    unfold ledgerW at hsol
    rw [List.mem_flatten] at hsol
    obtain ⟨l, hl, hs⟩ := hsol
    rw [List.mem_map] at hl
    obtain ⟨t, _, rfl⟩ := hl
    rw [dfs_eq_dfsRec n W t hn hn32] at hs
    obtain ⟨_, arcs, _, hspace, _, _, _, hslot⟩ := dfsRec_valid hn hn32 hs
    exact ⟨arcs, hspace, hslot⟩

/-- Witness for mirror pruning at the concrete input n = 3. -/
theorem mirror_pruning_witness :
    (initSt 3).stack = [(⟨0, -1, false, 0⟩ : Frame)] ∧
    (∀ (C : Ctx) (d : Bool) (F : Frame), F ∈ closeChild 3 C d → F.m = 0 →
      C.k ≤ 3) ∧
    ∀ (W : ℕ) (sol : List ℕ), sol ∈ ledgerW 3 W →
      ∃ arcs : List Arc,
        (∀ x ∈ arcs, x.b = x.a + x.m + 2 ∧ sol.getD x.m 0 = x.b) ∧
        ∃ x ∈ arcs, x.a = 0 ∧ x.d = false :=
  mirror_pruning 3 (by norm_num) (by norm_num)

/-- C8: state invariants along every search path: the availability bitset has
exactly n minus assigned-count set bits; the open count never exceeds n; every
close decision consumes a currently-set availability bit; and a completed path
(k = 2n) has all n values assigned, both opening words empty, open count n,
and the arcs tiling exactly the 2n slots. -/
theorem state_invariants (n : ℕ) (hn : 1 ≤ n) (hn32 : n ≤ 32) (C : Ctx)
    (s0 s1 : List ℕ) (arcs : List Arc) (ht : Trace n C s0 s1 arcs) :
    ((Finset.range n).filter (fun m => C.avail.testBit m = true)).card =
      n - arcs.length ∧
    C.no ≤ n ∧
    (∀ (d : Bool) (F : Frame), F ∈ closeChild n C d →
      C.avail.testBit F.m.toNat = true ∧
      (applyFrame n F C).avail.testBit F.m.toNat = false) ∧
    (C.k = 2 * n →
      arcs.length = n ∧ (∀ m, m < n → m ∈ arcs.map Arc.m) ∧
      C.o0 = 0 ∧ C.o1 = 0 ∧ C.no = n ∧
      (arcSlots arcs).Perm (List.range (2 * n))) := by
  have inv := trace_inv hn hn32 ht
  refine ⟨avail_popcount inv, inv.noLe, ?_, ?_⟩
  · intro d F hF
    obtain ⟨_, _, hm0, _, hbit, _⟩ := mem_closeChild hF
    have htb : C.avail.testBit F.m.toNat = true :=
      (shiftRight_mod_two_eq_one _ _).mp hbit
    refine ⟨htb, ?_⟩
    rw [applyFrame_closeCase n F C hm0]
    dsimp only
    rw [testBit_xor_one_shiftLeft_self, htb]
    rfl
  · intro hk
    obtain ⟨hs0, hs1, hlen, hall⟩ := final_facts hn hn32 ht hk
    refine ⟨hlen, hall, ?_, ?_, ?_, ?_⟩
    · rw [inv.enc0, hs0]
      rfl
    · rw [inv.enc1, hs1]
      rfl
    · rw [inv.noEq, hs0, hs1]
      simp [hlen]
    · have h1 := inv.tile
      rw [hs0, hs1, hk] at h1
      simpa using h1

/-- Witness for the state invariants at the root state of n = 3. -/
theorem state_invariants_witness :
    ((Finset.range 3).filter (fun m =>
      (applyFrame 3 rootFrame (initCtx 3)).avail.testBit m = true)).card =
      3 - ([] : List Arc).length ∧
    (applyFrame 3 rootFrame (initCtx 3)).no ≤ 3 ∧
    (∀ (d : Bool) (F : Frame),
      F ∈ closeChild 3 (applyFrame 3 rootFrame (initCtx 3)) d →
      (applyFrame 3 rootFrame (initCtx 3)).avail.testBit F.m.toNat = true ∧
      (applyFrame 3 F (applyFrame 3 rootFrame (initCtx 3))).avail.testBit
        F.m.toNat = false) ∧
    ((applyFrame 3 rootFrame (initCtx 3)).k = 2 * 3 →
      ([] : List Arc).length = 3 ∧
      (∀ m, m < 3 → m ∈ ([] : List Arc).map Arc.m) ∧
      (applyFrame 3 rootFrame (initCtx 3)).o0 = 0 ∧
      (applyFrame 3 rootFrame (initCtx 3)).o1 = 0 ∧
      (applyFrame 3 rootFrame (initCtx 3)).no = 3 ∧
      (arcSlots ([] : List Arc)).Perm (List.range (2 * 3))) :=
  state_invariants 3 (by norm_num) (by norm_num) _ [0] [] [] Trace.root

/-- C9: all memory accesses stay in bounds along the whole run: the explicit
stack never holds more than 6n frames, and every frame on it reads and writes
the per-depth arrays at indices k+1 ≤ 2n and 2k+3 ≤ 4n+1, within the declared
sizes 2n+1 and 4n+2. -/
theorem memory_bounds (n W t : ℕ) (hn : 1 ≤ n) (hn32 : n ≤ 32) (j : ℕ) :
    (runM n W t j (initSt n)).stack.length ≤ 6 * n ∧
    ∀ g ∈ (runM n W t j (initSt n)).stack,
      g.k + 1 ≤ 2 * n ∧ 2 * g.k + 3 ≤ 4 * n + 1 := by
  obtain ⟨h1, h2⟩ := machine_stack_bound n W t hn hn32 j
  refine ⟨by omega, ?_⟩
  intro g hg
  have := h2 g hg
  omega

/-- Witness for the memory bounds at the concrete input n = 3, W = 2, t = 0
after 4 iterations. -/
theorem memory_bounds_witness :
    (runM 3 2 0 4 (initSt 3)).stack.length ≤ 6 * 3 ∧
    ∀ g ∈ (runM 3 2 0 4 (initSt 3)).stack,
      g.k + 1 ≤ 2 * 3 ∧ 2 * g.k + 3 ≤ 4 * 3 + 1 :=
  memory_bounds 3 2 0 (by norm_num) (by norm_num) 4

/-- C10: for 1 ≤ n ≤ 31 no quantity leaves its type's range: the shift
amounts n-1 and 2n-1 are within the 32- and 64-bit widths, the availability
word fits 32 bits, and every reachable state and every frame it pushes keeps
all int8 fields in range (slot index ≤ 62, value index in [-1, 32), open
count ≤ 31, and the offset k - 2n - 2 in [-64, 0)). -/
theorem no_overflow (n : ℕ) (hn : 1 ≤ n) (hn31 : n ≤ 31) :
    n - 1 < 32 ∧ 2 * n - 1 < 64 ∧
    ∀ (C : Ctx) (s0 s1 : List ℕ) (arcs : List Arc), Trace n C s0 s1 arcs →
      C.k ≤ 62 ∧ C.no ≤ 31 ∧ C.avail < 2 ^ 32 ∧
      ∀ g ∈ childFrames n C, g.k ≤ 62 ∧ (-1 : ℤ) ≤ g.m ∧ g.m < 32 ∧
        g.no ≤ 31 ∧ (-64 : ℤ) ≤ (g.k : ℤ) - 2 * (n : ℤ) - 2 ∧
        (g.k : ℤ) - 2 * (n : ℤ) - 2 < 0 := by
  refine ⟨by omega, by omega, ?_⟩
  intro C s0 s1 arcs ht
  have inv := trace_inv hn (by omega) ht
  have hkle := inv.kle
  have hnoLe := inv.noLe
  refine ⟨by omega, by omega, ?_, ?_⟩
  · refine Nat.lt_pow_two_of_testBit C.avail ?_
    intro i hi
    cases hB : C.avail.testBit i
    · rfl
    · exfalso
      have := ((inv.availBit i).mp hB).1
      omega
  · intro g hg
    have hgk : g.k = C.k := childFrames_k hg
    have hgood := childFrames_good hn (by omega) ⟨s0, s1, arcs, ht⟩ hg
    have hgno : g.no = C.no := hgood.2.1
    rcases hgood.2.2.2 with hcase | hcase
    · refine ⟨by omega, by rw [hcase.1], by rw [hcase.1]; norm_num,
        by omega, by omega, by omega⟩
    · have hm1 := hcase.1
      have hm2 := hcase.2.1
      refine ⟨by omega, by omega, by omega, by omega, by omega, by omega⟩

/-- Witness for the range analysis at the root state of n = 3. -/
theorem no_overflow_witness :
    3 - 1 < 32 ∧ 2 * 3 - 1 < 64 ∧
    ∀ (C : Ctx) (s0 s1 : List ℕ) (arcs : List Arc), Trace 3 C s0 s1 arcs →
      C.k ≤ 62 ∧ C.no ≤ 31 ∧ C.avail < 2 ^ 32 ∧
      ∀ g ∈ childFrames 3 C, g.k ≤ 62 ∧ (-1 : ℤ) ≤ g.m ∧ g.m < 32 ∧
        g.no ≤ 31 ∧ (-64 : ℤ) ≤ (g.k : ℤ) - 2 * ((3 : ℕ) : ℤ) - 2 ∧
        (g.k : ℤ) - 2 * ((3 : ℕ) : ℤ) - 2 < 0 :=
  no_overflow 3 (by norm_num) (by norm_num)

end Planar
